import Mathlib

/-!
Verification of a minimal log-structured key-value storage engine
(a single Rust source file: `src/main.rs`).

The code is shallowly embedded: file contents are lists of characters
(`Str`), the file system is an association list from paths to contents,
Rust byte offsets become character offsets (all data in scope is
single-byte), `HashMap` becomes an insertion-ordered association list,
and every panicking operation (`unwrap`, `expect`, `panic!`) becomes an
explicit error constructor of `KvErr`.
-/

/-- File contents, keys, values and paths are character lists
(the Rust code uses `String`; byte offsets are modelled as character
offsets, faithful for single-byte characters). -/
abbrev Str := List Char

/-! ## Association lists (model of `std::collections::HashMap`) -/

/-- Lookup in an association list (model of `HashMap::get`). -/
def aget {α : Type} : List (Str × α) → Str → Option α
  | [], _ => none
  | (k', v) :: t, k => if k' = k then some v else aget t k

/-- Insert-or-replace (model of `HashMap::insert`); iteration order of the
Rust `HashMap` is unspecified, the model fixes insertion order. -/
def ainsert {α : Type} : List (Str × α) → Str → α → List (Str × α)
  | [], k, v => [(k, v)]
  | (k', v') :: t, k, v =>
    if k' = k then (k, v) :: t else (k', v') :: ainsert t k v

/-- Remove a key (model of `HashMap::remove`). -/
def aremove {α : Type} : List (Str × α) → Str → List (Str × α)
  | [], _ => []
  | (k', v') :: t, k => if k' = k then t else (k', v') :: aremove t k

/-! ## Character-list utilities -/

/-- Characters of one line starting at the head, up to and including the
first newline (model of `BufReader::read_line` from a seek position). -/
def takeLine : Str → Str
  | [] => []
  | c :: cs => if c = '\n' then ['\n'] else c :: takeLine cs

/-- The line starting at character offset `off` (seek + `read_line`). -/
def readLineAt (c : Str) (off : Nat) : Str :=
  takeLine (c.drop off)

/-- Split a line at the first `','` (model of `str::split_once(',')`):
`none` when no separator occurs. -/
def splitOnce : Str → Option (Str × Str)
  | [] => none
  | c :: cs =>
    if c = ',' then some ([], cs)
    else match splitOnce cs with
         | none => none
         | some (a, b) => some (c :: a, b)

/-- Split a file into lines (model of `BufReader::lines()`): pieces
between newlines, no terminators, a trailing newline yields no extra
empty line. -/
def splitLines : Str → List Str
  | [] => []
  | c :: cs =>
    if c = '\n' then [] :: splitLines cs
    else match splitLines cs with
         | [] => [[c]]
         | l :: ls => (c :: l) :: ls

/-- Drop the last character (model of `String::pop`, which on an empty
string leaves it unchanged). -/
def strPop (s : Str) : Str := s.dropLast

/-! ## Decimal printing and parsing

The Rust code prints sequence numbers with `format!("{:05}", n)` and
parses them back with `u64::from_str_radix(s, 10)`. Overflow at `u64`
is not modelled (numbers in scope are tiny); `from_str_radix`'s
acceptance of a leading `+` is not modelled (no path in scope has one).
-/

/-- Decimal digits of `n`, most significant first (fuel-based so that it
reduces definitionally; fuel `n+1` always suffices). -/
def natDigitsGo : Nat → Nat → Str
  | 0, _ => []
  | f + 1, n =>
    if n < 10 then [Char.ofNat (48 + n)]
    else natDigitsGo f (n / 10) ++ [Char.ofNat (48 + n % 10)]

/-- Decimal representation of `n` (model of `format!("{}", n)`). -/
def natDigits (n : Nat) : Str := natDigitsGo (n + 1) n

/-- Zero-pad to width 5 (model of `format!("{:05}", n)`). -/
def pad5 (n : Nat) : Str :=
  let d := natDigits n
  List.replicate (5 - d.length) '0' ++ d

/-- Numeric value of a digit character. -/
def digitVal (c : Char) : Nat := c.toNat - 48

/-- Fold a digit string into a number. -/
def parseNatCore (s : Str) : Nat := s.foldl (fun a c => a * 10 + digitVal c) 0

/-- Model of `u64::from_str_radix(s, 10)`: all-digit, non-empty. -/
def parseNat? (s : Str) : Option Nat :=
  if s ≠ [] ∧ s.all Char.isDigit then some (parseNatCore s) else none

/-- The characters after the last `'.'` of `s` (the whole of `s` when it
has no dot); model of `s.split('.').last().unwrap()`. -/
def lastDotComp (s : Str) : Str := (s.reverse.takeWhile (· ≠ '.')).reverse

/-! ## Paths -/

/-- Model of `Path::new(dp).join(f).display().to_string()` for the
directory paths in scope. -/
def joinPath (dp f : Str) : Str :=
  dp ++ (if dp.getLast? = some '/' then [] else ['/']) ++ f

/-- The path of the sealed segment with sequence number `n`:
`{data_path}/{prefix}.{n:05}`. -/
def mkPath (dp pre : Str) (n : Nat) : Str :=
  joinPath dp (pre ++ '.' :: pad5 n)

/-- The reserved active-segment path `{data_path}/{prefix}.current`. -/
def currentPath (dp pre : Str) : Str :=
  joinPath dp (pre ++ '.' :: ['c', 'u', 'r', 'r', 'e', 'n', 't'])

/-- The sequence number parsed from a path, as in `next_file_name`:
split on `'.'`, last component, parse decimal. -/
def seqOfPath (p : Str) : Option Nat := parseNat? (lastDotComp p)

/-- Model of `Iterator::max` on a list of numbers. -/
def listMax? : List Nat → Option Nat
  | [] => none
  | a :: as => some (as.foldl Nat.max a)

/-! ## Errors

The Rust code returns `SegmentError::{Io, KeyDeleted}` / `io::Error` and
panics on corruption (`expect`), index mismatch (`panic!`) and failed
unwraps. Panics are modelled as explicit error constructors:
`corruption` for the failed line splits guarded by `expect`,
`indexCorruption` for the `"index corrupted"` panic, and `abort` for the
remaining `unwrap` failures (empty `max`, parse failure, failed rename).
-/

inductive KvErr : Type where
  | ioErr : KvErr
  | keyDeleted : KvErr
  | corruption : KvErr
  | indexCorruption : KvErr
  | abort : KvErr
deriving DecidableEq, Repr

/-! ## File system

An association list from paths to file contents, single process, no
real I/O failures: `ioErr` arises only from operating on a missing file.
-/

abbrev FS := List (Str × Str)

def fsRead (fs : FS) (p : Str) : Option Str := aget fs p

def fsWrite (fs : FS) (p : Str) (c : Str) : FS := ainsert fs p c

def fsRemove (fs : FS) (p : Str) : FS := aremove fs p

/-- Model of `std::fs::rename` (as used in `retire_write_segment`, where
a failure is `unwrap`ped, hence `abort`). -/
def fsRename (fs : FS) (src dst : Str) : Except KvErr FS :=
  match fsRead fs src with
  | none => .error .abort
  | some c => .ok (fsWrite (fsRemove fs src) dst c)

/-! ## Segment (struct `Segment`) -/

structure Segment : Type where
  file_path : Str
  index : List (Str × Nat)
  size : Nat
deriving DecidableEq, Repr

/-- `build_index` body: scan lines with a running character position;
a line with no separator hits the `expect`, modelled as `corruption`. -/
def buildIndexGo : List Str → Nat → List (Str × Nat) → Except KvErr (List (Str × Nat))
  | [], _, m => .ok m
  | l :: ls, pos, m =>
    match splitOnce l with
    | none => .error .corruption
    | some (k, _) => buildIndexGo ls (pos + l.length + 1) (ainsert m k pos)

/-- Model of `build_index(file_path)` applied to the file's contents. -/
def buildIndex (c : Str) : Except KvErr (List (Str × Nat)) :=
  buildIndexGo (splitLines c) 0 []

/-- Model of `Segment::new`: create the file when absent, set `size`
from the file length, build the index (whose failure was `unwrap`ped
inside a panicking context). -/
def segmentNew (fs : FS) (path : Str) : Except KvErr (FS × Segment) :=
  let pr : FS × Str :=
    match fsRead fs path with
    | some c => (fs, c)
    | none => (fsWrite fs path [], [])
  match buildIndex pr.2 with
  | .ok m => .ok (pr.1, ⟨path, m, pr.2.length⟩)
  | .error er => .error er

/-- Model of `Segment::get_data`: index lookup, seek, read one line,
split at the first separator, check the decoded key, turn an empty
decoded value into `KeyDeleted`. A key absent from the index yields
`Ok("")` exactly as the Rust code does. -/
def segGet (fs : FS) (s : Segment) (k : Str) : Except KvErr Str :=
  match fsRead fs s.file_path with
  | none => .error .ioErr
  | some c =>
    match aget s.index k with
    | none => .ok []
    | some off =>
      match splitOnce (readLineAt c off) with
      | none => .error .corruption
      | some (lk, v0) =>
        if lk = k then
          let v := strPop v0
          if v = [] then .error .keyDeleted else .ok v
        else .error .indexCorruption

/-- Model of `Segment::save_data`: append `key,value\n`, record the
offset `stream_position - line.len() - 1` (the pre-append length) in
the index, grow `size` by `line.len() + 1`. The file is opened without
`create`, so a missing file is an I/O error. -/
def segSave (fs : FS) (s : Segment) (k v : Str) : Except KvErr (FS × Segment) :=
  match fsRead fs s.file_path with
  | none => .error .ioErr
  | some c =>
    let line : Str := k ++ ',' :: v
    .ok (fsWrite fs s.file_path (c ++ line ++ ['\n']),
         ⟨s.file_path, ainsert s.index k c.length, s.size + line.length + 1⟩)

/-! ## Store (struct `Environment`) -/

/-- Rotation threshold (`SEGMENT_THRESHOLD`). -/
def SEGMENT_THRESHOLD : Nat := 256

structure Environment : Type where
  data_path : Str
  /-- Source field name: `file_prefix` (renamed here). -/
  file_pref : Str
  segments : List Segment
  write_segment : Segment
deriving DecidableEq, Repr

/-- The per-segment parse of `next_file_name`'s iterator chain
(`u64::from_str_radix(...).unwrap()`, hence `abort` on failure). -/
def parseSeqs : List Segment → Except KvErr (List Nat)
  | [] => .ok []
  | s :: ss =>
    match seqOfPath s.file_path with
    | none => .error .abort
    | some n =>
      match parseSeqs ss with
      | .error er => .error er
      | .ok ns => .ok (n :: ns)

/-- Model of `Environment::next_file_name`: parse the sequence number of
every sealed segment path, take the maximum (`unwrap`, hence `abort` on
an empty list), and render `{prefix}.{max+1:05}` under the data path. -/
def nextFileName (e : Environment) : Except KvErr Str :=
  match parseSeqs e.segments with
  | .error er => .error er
  | .ok ns =>
    match listMax? ns with
    | none => .error .abort
    | some m => .ok (mkPath e.data_path e.file_pref (m + 1))

/-- Model of `Environment::retire_write_segment`: rename the active file
to the next numbered path, wrap it as a sealed segment (rebuilding the
index via `Segment::new`), append it, and open a fresh active segment at
the reserved `current` path. -/
def retireWriteSegment (fs : FS) (e : Environment) : Except KvErr (FS × Environment) :=
  match nextFileName e with
  | .error er => .error er
  | .ok p =>
    match fsRename fs e.write_segment.file_path p with
    | .error er => .error er
    | .ok fs1 =>
      match segmentNew fs1 p with
      | .error er => .error er
      | .ok (fs2, s) =>
        match segmentNew fs2 (currentPath e.data_path e.file_pref) with
        | .error er => .error er
        | .ok (fs3, ws) =>
          .ok (fs3, { e with segments := e.segments ++ [s], write_segment := ws })

/-- The sealed-segment probe loop of `get_data` (iteration over
`env.segments.iter().rev()` with early return). -/
def probeSealed (fs : FS) : List Segment → Str → Except KvErr Str
  | [], _ => .ok []
  | s :: ss, k =>
    match segGet fs s k with
    | .ok v => if v = [] then probeSealed fs ss k else .ok v
    | .error er => .error er

/-- Model of the free function `get_data`: probe the active segment, on
a non-empty value or any error return it, otherwise probe the sealed
segments newest first; all-misses yield `Ok(String::new())`. -/
def getData (fs : FS) (e : Environment) (k : Str) : Except KvErr Str :=
  match segGet fs e.write_segment k with
  | .ok v => if v = [] then probeSealed fs e.segments.reverse k else .ok v
  | .error er => .error er

/-- Model of the free function `set_data`: rotate first when the active
segment's size exceeds the threshold, then append. -/
def setData (fs : FS) (e : Environment) (k v : Str) : Except KvErr (FS × Environment) :=
  if e.write_segment.size > SEGMENT_THRESHOLD then
    match retireWriteSegment fs e with
    | .error er => .error er
    | .ok (fs1, e1) =>
      match segSave fs1 e1.write_segment k v with
      | .error er => .error er
      | .ok (fs2, ws) => .ok (fs2, { e1 with write_segment := ws })
  else
    match segSave fs e.write_segment k v with
    | .error er => .error er
    | .ok (fs2, ws) => .ok (fs2, { e with write_segment := ws })

/-! ## Compaction (`Environment::compact_segments`) -/

/-- One replayed line of the merge loop: the split is `unwrap`ped
(`abort` on failure); an empty value removes the key, otherwise the
value is stored. -/
def applyLine (m : List (Str × Str)) (l : Str) : Except KvErr (List (Str × Str)) :=
  match splitOnce l with
  | none => .error .abort
  | some (k, v) => .ok (if v = [] then aremove m k else ainsert m k v)

def replayLines : List Str → List (Str × Str) → Except KvErr (List (Str × Str))
  | [], m => .ok m
  | l :: ls, m =>
    match applyLine m l with
    | .error er => .error er
    | .ok m' => replayLines ls m'

/-- Replay every sealed segment's file, oldest (list head) first. -/
def replaySegs (fs : FS) : List Segment → List (Str × Str) → Except KvErr (List (Str × Str))
  | [], m => .ok m
  | s :: ss, m =>
    match fsRead fs s.file_path with
    | none => .error .ioErr
    | some c =>
      match replayLines (splitLines c) m with
      | .error er => .error er
      | .ok m' => replaySegs fs ss m'

/-- The write-out loop of `compact_segments`: before each entry, if the
current fresh segment's size exceeds the threshold, push it and open a
new segment at `next_file_name()` (recomputed against the unchanged old
segment list); then append the entry. -/
def compactWrite (fs : FS) (e : Environment) (cur : Segment) (acc : List Segment) :
    List (Str × Str) → Except KvErr (FS × List Segment)
  | [] => .ok (fs, acc ++ [cur])
  | (k, v) :: rest =>
    if cur.size > SEGMENT_THRESHOLD then
      match nextFileName e with
      | .error er => .error er
      | .ok p =>
        match segmentNew fs p with
        | .error er => .error er
        | .ok (fs1, c2) =>
          match segSave fs1 c2 k v with
          | .error er => .error er
          | .ok (fs2, c3) => compactWrite fs2 e c3 (acc ++ [cur]) rest
    else
      match segSave fs cur k v with
      | .error er => .error er
      | .ok (fs2, c2) => compactWrite fs2 e c2 acc rest

/-- Delete the original sealed files (`remove_file`, whose failure on a
missing file is an I/O error propagated by `?`). -/
def removePaths : FS → List Str → Except KvErr FS
  | fs, [] => .ok fs
  | fs, p :: ps =>
    match fsRead fs p with
    | none => .error .ioErr
    | some _ => removePaths (fsRemove fs p) ps

/-- Model of `Environment::compact_segments`. -/
def compactSegments (fs : FS) (e : Environment) : Except KvErr (FS × Environment) :=
  match replaySegs fs e.segments [] with
  | .error er => .error er
  | .ok total =>
    match nextFileName e with
    | .error er => .error er
    | .ok p =>
      match segmentNew fs p with
      | .error er => .error er
      | .ok (fs1, cur) =>
        match compactWrite fs1 e cur [] total with
        | .error er => .error er
        | .ok (fs2, newSegs) =>
          match removePaths fs2 (e.segments.map (fun s => s.file_path)) with
          | .error er => .error er
          | .ok fs3 => .ok (fs3, { e with segments := newSegs })

/-! ## Store initialization (`Environment::new`) -/

/-- Build one segment per listed path, threading the file system in
listing order. -/
def segmentsFromListing (fs : FS) : List Str → Except KvErr (FS × List Segment)
  | [] => .ok (fs, [])
  | p :: ps =>
    match segmentNew fs p with
    | .error er => .error er
    | .ok (fs1, s) =>
      match segmentsFromListing fs1 ps with
      | .error er => .error er
      | .ok (fs2, ss) => .ok (fs2, s :: ss)

/-- Remove the first segment whose path ends with `current` (the
`position` + `remove` pair in `Environment::new`). -/
def removeFirstCurrent : List Segment → List Segment
  | [] => []
  | s :: ss =>
    if List.isSuffixOf ['c', 'u', 'r', 'r', 'e', 'n', 't'] s.file_path
    then ss
    else s :: removeFirstCurrent ss

/-- Model of `Environment::new`: `listing` is the file-name enumeration
order of `read_dir` (no order is imposed by the OS); names starting with
the prefix become segments in discovery order, the `current` entry is
dropped from the sealed list, and the active segment is opened at the
reserved `current` path. -/
def environmentNew (fs : FS) (listing : List Str) (dp pre : Str) :
    Except KvErr (FS × Environment) :=
  let names := listing.filter (fun n => List.isPrefixOf pre n)
  match segmentsFromListing fs (names.map (joinPath dp)) with
  | .error er => .error er
  | .ok (fs1, segs) =>
    match segmentNew fs1 (currentPath dp pre) with
    | .error er => .error er
    | .ok (fs2, ws) => .ok (fs2, ⟨dp, pre, removeFirstCurrent segs, ws⟩)

/-! ## Record view of file contents

A well-formed segment file is the encoding of a list of records
`(key, value)`, one line `key,value\n` per record; a record with an
empty value is a tombstone. These definitions give the specification
vocabulary used by the theorems.
-/

/-- One record's line without its newline terminator. -/
def rawLine (r : Str × Str) : Str := r.1 ++ ',' :: r.2

/-- One record's line with its newline terminator. -/
def lineOf (r : Str × Str) : Str := rawLine r ++ ['\n']

/-- A record list serialized as file contents. -/
def encodeRecords (rs : List (Str × Str)) : Str := (rs.map lineOf).flatten

/-- The value of the last record for `k`, if any (`some []` is a
tombstone). -/
def lastVal : List (Str × Str) → Str → Option Str
  | [], _ => none
  | (k', v) :: t, k =>
    match lastVal t k with
    | some w => some w
    | none => if k' = k then some v else none

/-- The index `build_index` computes over `encodeRecords`: each record's
key mapped to its line-start offset, later records overwriting. -/
def recIndexGo : List (Str × Str) → Nat → List (Str × Nat) → List (Str × Nat)
  | [], _, m => m
  | r :: rs, pos, m => recIndexGo rs (pos + (lineOf r).length) (ainsert m r.1 pos)

/-- One record applied to the merge map of compaction. -/
def applyRec (m : List (Str × Str)) (r : Str × Str) : List (Str × Str) :=
  if r.2 = [] then aremove m r.1 else ainsert m r.1 r.2

/-- The `Segment::get_data` outcome determined by the last record for a
key: absent is `Ok("")`, a tombstone is `KeyDeleted`, otherwise the
value. -/
def outcomeOf : Option Str → Except KvErr Str
  | none => .ok []
  | some v => if v = [] then .error .keyDeleted else .ok v

/-- A record the engine can read back: the key contains neither the
separator nor a newline, the value contains no newline. -/
def CleanRec (r : Str × Str) : Prop := ',' ∉ r.1 ∧ '\n' ∉ r.1 ∧ '\n' ∉ r.2

instance : DecidablePred CleanRec := fun r => by unfold CleanRec; infer_instance

/-- The file contents backing a path (`[]` when absent; used only under
a presence hypothesis). -/
def contentAt (fs : FS) (p : Str) : Str := (fsRead fs p).getD []

/-- A segment object consistent with its on-disk file: the file exists,
is empty or newline-terminated, and the object's index is exactly what
`build_index` reconstructs from it. -/
def SegWF (fs : FS) (s : Segment) : Prop :=
  (fsRead fs s.file_path).isSome = true ∧
  (contentAt fs s.file_path = [] ∨ (contentAt fs s.file_path).getLast? = some '\n') ∧
  (buildIndex (contentAt fs s.file_path)).toOption = some s.index

instance (fs : FS) : DecidablePred (SegWF fs) := fun s => by unfold SegWF; infer_instance

/-- Store well-formedness: the active segment sits at the reserved
`current` path and is consistent with its file; every sealed segment is
consistent with its file and its path carries a parsable sequence
number; sealed paths are distinct; the file system holds exactly the
store's files. -/
def EnvWF (fs : FS) (e : Environment) : Prop :=
  e.write_segment.file_path = currentPath e.data_path e.file_pref ∧
  SegWF fs e.write_segment ∧
  (∀ s ∈ e.segments, SegWF fs s ∧ (seqOfPath s.file_path).isSome = true) ∧
  (e.segments.map (fun s => s.file_path)).Nodup ∧
  (fs.map Prod.fst).Nodup ∧
  (∀ pr ∈ fs, pr.1 = currentPath e.data_path e.file_pref ∨
              pr.1 ∈ e.segments.map (fun s => s.file_path)) ∧
  (fsRead fs (currentPath e.data_path e.file_pref)).isSome = true

instance (fs : FS) (e : Environment) : Decidable (EnvWF fs e) := by
  unfold EnvWF; infer_instance

/-- All file contents owned by the store, sealed (in list order) then
active; rotation must preserve this (no record lost or duplicated). -/
def allContents (fs : FS) (e : Environment) : Str :=
  (e.segments.map (fun s => contentAt fs s.file_path)).flatten ++
    contentAt fs e.write_segment.file_path

/-! ## Specification-side probe vocabulary (for the read-path claim)

`specProbeOutcome`, `firstNonNotFound` and `renderProbe` transcribe the
specification's words: each segment yields `NotFound`, `Deleted` or a
value; the store returns the first non-`NotFound` outcome, active
segment first, then sealed segments newest first.
-/

inductive ProbeRes : Type where
  | notFound : ProbeRes
  | deleted : ProbeRes
  | value : Str → ProbeRes
deriving DecidableEq, Repr

/-- The three-valued outcome of probing one segment, when the probe does
not fail (`none` on an I/O or corruption failure). -/
def specProbeOutcome (fs : FS) (s : Segment) (k : Str) : Option ProbeRes :=
  match segGet fs s k with
  | .ok v => if v = [] then some .notFound else some (.value v)
  | .error .keyDeleted => some .deleted
  | .error _ => none

/-- Modelled from the spec: the first non-`NotFound` outcome wins; if
every segment reports `NotFound`, the overall result is `NotFound`. -/
def firstNonNotFound : List ProbeRes → ProbeRes
  | [] => .notFound
  | r :: rs =>
    match r with
    | .notFound => firstNonNotFound rs
    | x => x

/-- How `get_data` surfaces a three-valued outcome. -/
def renderProbe : ProbeRes → Except KvErr Str
  | .notFound => .ok []
  | .deleted => .error .keyDeleted
  | .value v => .ok v

/-! # Concrete stores for counterexamples and witnesses -/

/-- A segment object backed by contents `encodeRecords rs` with the
matching rebuilt index. -/
def SegRecs (fs : FS) (s : Segment) (rs : List (Str × Str)) : Prop :=
  fsRead fs s.file_path = some (encodeRecords rs) ∧
  (∀ r ∈ rs, CleanRec r) ∧ s.index = recIndexGo rs 0 []

deriving instance DecidableEq for Except

def dpC : Str := ['d']

def preC : Str := ['d', 'b']

def cpC : Str := currentPath dpC preC

def p1C : Str := mkPath dpC preC 1

/-- A well-formed store with one sealed segment holding a single
tombstone record for key `b`. -/
def fsTomb : FS := [(cpC, []), (p1C, ['b', ',', '\n'])]

def envTomb : Environment := ⟨dpC, preC, [⟨p1C, [(['b'], 0)], 3⟩], ⟨cpC, [], 0⟩⟩

/-- A well-formed store with one sealed segment whose two records are
long enough that compaction has to split across the threshold. -/
def recsBig : List (Str × Str) := [(['k'], List.replicate 260 'x'), (['m'], ['y'])]

def fsBig : FS := [(cpC, []), (p1C, encodeRecords recsBig)]

def envBig : Environment :=
  ⟨dpC, preC, [⟨p1C, recIndexGo recsBig 0 [], (encodeRecords recsBig).length⟩],
   ⟨cpC, [], 0⟩⟩

/-- The store obtained by opening an empty data directory. -/
def fsEmpty : FS := [(cpC, [])]

def envEmpty : Environment := ⟨dpC, preC, [], ⟨cpC, [], 0⟩⟩

/-- The error carried by a result, if any. -/
def errOf {α : Type} : Except KvErr α → Option KvErr
  | .error er => some er
  | .ok _ => none

/-- Spec-side: the sequence of per-segment outcomes for a probe list
(`none` when some probe fails with an I/O or corruption error). -/
def probeOutcomes (fs : FS) (k : Str) : List Segment → Option (List ProbeRes)
  | [] => some []
  | s :: ss =>
    match specProbeOutcome fs s k, probeOutcomes fs k ss with
    | some r, some rs => some (r :: rs)
    | _, _ => none

/-- Spec-side rendering of a failed probe. -/
def errProbe : KvErr → Option ProbeRes
  | .keyDeleted => some ProbeRes.deleted
  | _ => none

def p2C : Str := mkPath dpC preC 2

/-- A store with an empty active segment and two sealed segments: the
older holds `a,1`, the newer holds `b,2`. -/
def fsC2 : FS :=
  [(cpC, []), (p1C, encodeRecords [(['a'], ['1'])]),
   (p2C, encodeRecords [(['b'], ['2'])])]

def envC2 : Environment :=
  ⟨dpC, preC, [⟨p1C, [(['a'], 0)], 4⟩, ⟨p2C, [(['b'], 0)], 4⟩], ⟨cpC, [], 0⟩⟩

/-- The store reached by `set a 1; set b 2; set a 3; delete b` on a
store opened over an empty data directory (`DELETE` is `set` with the
empty value, as in `handle_command`). -/
def c5State : Except KvErr (FS × Environment) :=
  match environmentNew [] [] dpC preC with
  | .error er => .error er
  | .ok (fs0, e0) =>
    match setData fs0 e0 ['a'] ['1'] with
    | .error er => .error er
    | .ok (fs1, e1) =>
      match setData fs1 e1 ['b'] ['2'] with
      | .error er => .error er
      | .ok (fs2, e2) =>
        match setData fs2 e2 ['a'] ['3'] with
        | .error er => .error er
        | .ok (fs3, e3) => setData fs3 e3 ['b'] []

/-- A segment whose index points key `k` at offset 0 of a file whose
first line has no separator. -/
def segC6 : Segment := ⟨p1C, [(['k'], 0)], 3⟩

def fsC6 : FS := [(p1C, ['a', 'b', '\n'])]

/-- A directory listing that enumerates segment 2 before segment 1. -/
def listingTwo : List Str := [preC ++ '.' :: pad5 2, preC ++ '.' :: pad5 1]

def fsTwo : FS := [(mkPath dpC preC 2, []), (mkPath dpC preC 1, [])]

/-- An empty-directory store whose active segment has outgrown the
threshold. -/
def envFull : Environment := ⟨dpC, preC, [], ⟨cpC, [], 300⟩⟩

/-! # Lemma base -/

/-! ## Association-list lemmas -/

theorem aget_cons {α : Type} (a : Str) (b : α) (t : List (Str × α)) (k : Str) :
    aget ((a, b) :: t) k = if a = k then some b else aget t k := rfl

theorem ainsert_cons {α : Type} (a : Str) (b : α) (t : List (Str × α)) (k : Str) (v : α) :
    ainsert ((a, b) :: t) k v =
      if a = k then (k, v) :: t else (a, b) :: ainsert t k v := rfl

theorem aremove_cons {α : Type} (a : Str) (b : α) (t : List (Str × α)) (k : Str) :
    aremove ((a, b) :: t) k = if a = k then t else (a, b) :: aremove t k := rfl

theorem aget_ainsert_self {α : Type} (m : List (Str × α)) (k : Str) (v : α) :
    aget (ainsert m k v) k = some v := by
  induction m with
  | nil => simp [ainsert, aget]
  | cons p t ih =>
    obtain ⟨a, b⟩ := p
    rw [ainsert_cons]
    by_cases h : a = k
    · rw [if_pos h, aget_cons, if_pos rfl]
    · rw [if_neg h, aget_cons, if_neg h, ih]

theorem aget_ainsert_ne {α : Type} (m : List (Str × α)) {k' k : Str} (v : α)
    (h : k' ≠ k) : aget (ainsert m k' v) k = aget m k := by
  induction m with
  | nil => simp [ainsert, aget, h]
  | cons p t ih =>
    obtain ⟨a, b⟩ := p
    rw [ainsert_cons]
    by_cases hp : a = k'
    · subst hp
      rw [if_pos rfl, aget_cons, aget_cons, if_neg h, if_neg h]
    · rw [if_neg hp, aget_cons, aget_cons, ih]

theorem aget_eq_none_iff {α : Type} (m : List (Str × α)) (k : Str) :
    aget m k = none ↔ k ∉ m.map Prod.fst := by
  induction m with
  | nil => simp [aget]
  | cons p t ih =>
    obtain ⟨a, b⟩ := p
    rw [aget_cons]
    by_cases h : a = k
    · rw [if_pos h]
      refine iff_of_false (by simp) (not_not_intro ?_)
      simp only [List.map_cons, List.mem_cons]
      exact Or.inl h.symm
    · rw [if_neg h, ih]
      simp only [List.map_cons, List.mem_cons, not_or]
      constructor
      · intro ht
        exact ⟨fun hk => h hk.symm, ht⟩
      · intro hc
        exact hc.2

theorem aget_isSome_iff {α : Type} (m : List (Str × α)) (k : Str) :
    (aget m k).isSome = true ↔ k ∈ m.map Prod.fst := by
  rw [Option.isSome_iff_ne_none, ne_eq, not_iff_comm, aget_eq_none_iff]

theorem mem_of_aget {α : Type} {m : List (Str × α)} {k : Str} {v : α}
    (h : aget m k = some v) : (k, v) ∈ m := by
  induction m with
  | nil => simp [aget] at h
  | cons p t ih =>
    obtain ⟨a, b⟩ := p
    rw [aget_cons] at h
    by_cases hp : a = k
    · rw [if_pos hp] at h
      obtain rfl : b = v := Option.some.inj h
      exact hp ▸ List.mem_cons_self _ _
    · rw [if_neg hp] at h
      exact List.mem_cons_of_mem _ (ih h)

theorem keys_ainsert {α : Type} (m : List (Str × α)) (k : Str) (v : α) (q : Str) :
    q ∈ (ainsert m k v).map Prod.fst ↔ q = k ∨ q ∈ m.map Prod.fst := by
  induction m with
  | nil => simp [ainsert, eq_comm]
  | cons p t ih =>
    obtain ⟨a, b⟩ := p
    rw [ainsert_cons]
    by_cases hp : a = k
    · rw [if_pos hp]
      subst hp
      simp only [List.map_cons, List.mem_cons]
      tauto
    · rw [if_neg hp]
      simp only [List.map_cons, List.mem_cons, ih]
      tauto

theorem keys_aremove_sub {α : Type} (m : List (Str × α)) (k : Str) (q : Str) :
    q ∈ (aremove m k).map Prod.fst → q ∈ m.map Prod.fst := by
  induction m with
  | nil => simp [aremove]
  | cons p t ih =>
    obtain ⟨a, b⟩ := p
    rw [aremove_cons]
    by_cases hp : a = k
    · rw [if_pos hp]
      intro h
      exact List.mem_cons_of_mem _ h
    · rw [if_neg hp]
      simp only [List.map_cons, List.mem_cons]
      rintro (h | h)
      · exact Or.inl h
      · exact Or.inr (ih h)

theorem nodup_keys_ainsert {α : Type} (m : List (Str × α)) (k : Str) (v : α)
    (h : (m.map Prod.fst).Nodup) : ((ainsert m k v).map Prod.fst).Nodup := by
  induction m with
  | nil => simp [ainsert]
  | cons p t ih =>
    obtain ⟨a, b⟩ := p
    simp only [List.map_cons, List.nodup_cons] at h
    rw [ainsert_cons]
    by_cases hp : a = k
    · rw [if_pos hp]
      subst hp
      simp only [List.map_cons, List.nodup_cons]
      exact h
    · rw [if_neg hp]
      simp only [List.map_cons, List.nodup_cons]
      refine ⟨fun hc => ?_, ih h.2⟩
      rcases (keys_ainsert t k v a).mp hc with h1 | h1
      · exact hp h1
      · exact h.1 h1

theorem nodup_keys_aremove {α : Type} (m : List (Str × α)) (k : Str)
    (h : (m.map Prod.fst).Nodup) : ((aremove m k).map Prod.fst).Nodup := by
  induction m with
  | nil => simp [aremove]
  | cons p t ih =>
    obtain ⟨a, b⟩ := p
    simp only [List.map_cons, List.nodup_cons] at h
    rw [aremove_cons]
    by_cases hp : a = k
    · rw [if_pos hp]
      exact h.2
    · rw [if_neg hp]
      simp only [List.map_cons, List.nodup_cons]
      exact ⟨fun hc => h.1 (keys_aremove_sub t k a hc), ih h.2⟩

theorem aget_aremove_self {α : Type} (m : List (Str × α)) (k : Str)
    (h : (m.map Prod.fst).Nodup) : aget (aremove m k) k = none := by
  induction m with
  | nil => simp [aremove, aget]
  | cons p t ih =>
    obtain ⟨a, b⟩ := p
    simp only [List.map_cons, List.nodup_cons] at h
    rw [aremove_cons]
    by_cases hp : a = k
    · rw [if_pos hp]
      rw [aget_eq_none_iff]
      exact hp ▸ h.1
    · rw [if_neg hp, aget_cons, if_neg hp]
      exact ih h.2

theorem aget_aremove_ne {α : Type} (m : List (Str × α)) {k' k : Str}
    (h : k' ≠ k) : aget (aremove m k') k = aget m k := by
  induction m with
  | nil => simp [aremove]
  | cons p t ih =>
    obtain ⟨a, b⟩ := p
    rw [aremove_cons]
    by_cases hp : a = k'
    · subst hp
      rw [if_pos rfl, aget_cons, if_neg h]
    · rw [if_neg hp, aget_cons, aget_cons, ih]

theorem mem_ainsert {α : Type} {m : List (Str × α)} {k : Str} {v : α} {r : Str × α}
    (h : r ∈ ainsert m k v) : r = (k, v) ∨ r ∈ m := by
  induction m with
  | nil => simpa [ainsert] using h
  | cons p t ih =>
    obtain ⟨a, b⟩ := p
    rw [ainsert_cons] at h
    by_cases hp : a = k
    · rw [if_pos hp] at h
      rcases List.mem_cons.mp h with h1 | h1
      · exact Or.inl h1
      · exact Or.inr (List.mem_cons_of_mem _ h1)
    · rw [if_neg hp] at h
      rcases List.mem_cons.mp h with h1 | h1
      · exact Or.inr (h1 ▸ List.mem_cons_self _ _)
      · rcases ih h1 with h2 | h2
        · exact Or.inl h2
        · exact Or.inr (List.mem_cons_of_mem _ h2)

theorem mem_aremove {α : Type} {m : List (Str × α)} {k : Str} {r : Str × α}
    (h : r ∈ aremove m k) : r ∈ m := by
  induction m with
  | nil => simp [aremove] at h
  | cons p t ih =>
    obtain ⟨a, b⟩ := p
    rw [aremove_cons] at h
    by_cases hp : a = k
    · rw [if_pos hp] at h
      exact List.mem_cons_of_mem _ h
    · rw [if_neg hp] at h
      rcases List.mem_cons.mp h with h1 | h1
      · exact h1 ▸ List.mem_cons_self _ _
      · exact List.mem_cons_of_mem _ (ih h1)

/-! ## Character-list lemmas -/

theorem takeLine_cons (c : Char) (l : Str) :
    takeLine (c :: l) = if c = '\n' then ['\n'] else c :: takeLine l := rfl

theorem splitOnce_cons (c : Char) (l : Str) :
    splitOnce (c :: l) =
      if c = ',' then some ([], l)
      else match splitOnce l with
           | none => none
           | some (a, b) => some (c :: a, b) := rfl

theorem splitLines_cons (c : Char) (l : Str) :
    splitLines (c :: l) =
      if c = '\n' then [] :: splitLines l
      else match splitLines l with
           | [] => [[c]]
           | a :: as => (c :: a) :: as := rfl

theorem takeLine_append {a : Str} (b : Str) (h : '\n' ∉ a) :
    takeLine (a ++ '\n' :: b) = a ++ ['\n'] := by
  induction a with
  | nil => simp [takeLine]
  | cons c cs ih =>
    have hc : c ≠ '\n' := fun he => h (he ▸ List.mem_cons_self _ _)
    have hcs : '\n' ∉ cs := fun hm => h (List.mem_cons_of_mem _ hm)
    rw [List.cons_append, takeLine_cons, if_neg hc, ih hcs, List.cons_append]

theorem splitOnce_append {a : Str} (b : Str) (h : ',' ∉ a) :
    splitOnce (a ++ ',' :: b) = some (a, b) := by
  induction a with
  | nil => simp [splitOnce]
  | cons c cs ih =>
    have hc : c ≠ ',' := fun he => h (he ▸ List.mem_cons_self _ _)
    have hcs : ',' ∉ cs := fun hm => h (List.mem_cons_of_mem _ hm)
    rw [List.cons_append, splitOnce_cons, if_neg hc, ih hcs]

theorem splitOnce_eq {l a b : Str} (h : splitOnce l = some (a, b)) :
    l = a ++ ',' :: b ∧ ',' ∉ a := by
  induction l generalizing a b with
  | nil => simp [splitOnce] at h
  | cons c cs ih =>
    by_cases hc : c = ','
    · subst hc
      rw [splitOnce_cons, if_pos rfl] at h
      simp only [Option.some.injEq, Prod.mk.injEq] at h
      obtain ⟨rfl, rfl⟩ := h
      exact ⟨rfl, List.not_mem_nil _⟩
    · rw [splitOnce_cons, if_neg hc] at h
      cases hsp : splitOnce cs with
      | none =>
        rw [hsp] at h
        cases h
      | some pr =>
        obtain ⟨a', b'⟩ := pr
        rw [hsp] at h
        simp only [Option.some.injEq, Prod.mk.injEq] at h
        obtain ⟨rfl, rfl⟩ := h
        obtain ⟨he, hm⟩ := ih hsp
        refine ⟨by rw [he]; rfl, ?_⟩
        intro hmem
        rcases List.mem_cons.mp hmem with h1 | h1
        · exact hc h1.symm
        · exact hm h1

theorem splitOnce_eq_none_iff (l : Str) : splitOnce l = none ↔ ',' ∉ l := by
  induction l with
  | nil => simp [splitOnce]
  | cons c cs ih =>
    by_cases hc : c = ','
    · subst hc
      rw [splitOnce_cons, if_pos rfl]
      simp
    · rw [splitOnce_cons, if_neg hc]
      cases hsp : splitOnce cs with
      | none =>
        have hcs : ',' ∉ cs := ih.mp hsp
        simp only [List.mem_cons, not_or]
        exact iff_of_true trivial ⟨fun he => hc he.symm, hcs⟩
      | some pr =>
        obtain ⟨a', b'⟩ := pr
        have hmem : ',' ∈ cs := by
          obtain ⟨he, _⟩ := splitOnce_eq hsp
          rw [he]
          exact List.mem_append_right _ (List.mem_cons_self _ _)
        simp only [List.mem_cons, not_or]
        exact iff_of_false (fun hcon => Option.noConfusion hcon) (fun hcon => hcon.2 hmem)

theorem strPop_concat (a : Str) (x : Char) : strPop (a ++ [x]) = a := by
  simp [strPop]

/-! ## Line-splitting and record-encoding lemmas -/

theorem splitLines_ne_nil {s : Str} (h : s ≠ []) : splitLines s ≠ [] := by
  cases s with
  | nil => exact absurd rfl h
  | cons c cs =>
    rw [splitLines_cons]
    by_cases hc : c = '\n'
    · rw [if_pos hc]
      exact List.cons_ne_nil _ _
    · rw [if_neg hc]
      cases splitLines cs with
      | nil => exact List.cons_ne_nil _ _
      | cons a as => exact List.cons_ne_nil _ _

theorem splitLines_no_nl (s : Str) : ∀ l ∈ splitLines s, '\n' ∉ l := by
  induction s with
  | nil =>
    intro l hl
    simp [splitLines] at hl
  | cons c cs ih =>
    intro l hl
    rw [splitLines_cons] at hl
    by_cases hc : c = '\n'
    · rw [if_pos hc] at hl
      rcases List.mem_cons.mp hl with h1 | h1
      · subst h1
        exact List.not_mem_nil _
      · exact ih l h1
    · rw [if_neg hc] at hl
      cases hsl : splitLines cs with
      | nil =>
        rw [hsl] at hl
        rcases List.mem_cons.mp hl with h1 | h1
        · subst h1
          intro hm
          rcases List.mem_cons.mp hm with h2 | h2
          · exact hc h2.symm
          · exact List.not_mem_nil _ h2
        · simp at h1
      | cons a as =>
        rw [hsl] at hl
        rcases List.mem_cons.mp hl with h1 | h1
        · subst h1
          intro hm
          rcases List.mem_cons.mp hm with h2 | h2
          · exact hc h2.symm
          · exact ih a (hsl ▸ List.mem_cons_self _ _) h2
        · exact ih l (hsl ▸ List.mem_cons_of_mem _ h1)

theorem splitLines_append_nl {l : Str} (rest : Str) (h : '\n' ∉ l) :
    splitLines (l ++ '\n' :: rest) = l :: splitLines rest := by
  induction l with
  | nil => simp [splitLines_cons]
  | cons c cs ih =>
    have hc : c ≠ '\n' := fun he => h (he ▸ List.mem_cons_self _ _)
    have hcs : '\n' ∉ cs := fun hm => h (List.mem_cons_of_mem _ hm)
    rw [List.cons_append, splitLines_cons, if_neg hc, ih hcs]

theorem getLast?_append_right {b : Str} (a : Str) (h : b ≠ []) :
    (a ++ b).getLast? = b.getLast? := by
  induction a with
  | nil => rfl
  | cons c cs ih =>
    have hne : cs ++ b ≠ [] := fun hx => h (List.append_eq_nil.mp hx).2
    rw [List.cons_append]
    obtain ⟨d, ds, hds⟩ := List.exists_cons_of_ne_nil hne
    rw [hds, List.getLast?_cons_cons, ← hds, ih]

theorem joinNL_splitLines (s : Str) (h : s = [] ∨ s.getLast? = some '\n') :
    ((splitLines s).map (fun l => l ++ ['\n'])).flatten = s := by
  induction s with
  | nil => rfl
  | cons c cs ih =>
    have hlast : (c :: cs).getLast? = some '\n' := by
      rcases h with h | h
      · cases h
      · exact h
    by_cases hc : c = '\n'
    · subst hc
      rw [splitLines_cons, if_pos rfl, List.map_cons, List.flatten_cons]
      cases cs with
      | nil => rfl
      | cons d ds =>
        have hend : (d :: ds).getLast? = some '\n' := by
          rw [List.getLast?_cons_cons] at hlast
          exact hlast
        rw [ih (Or.inr hend)]
        rfl
    · cases cs with
      | nil =>
        exfalso
        have : some c = some '\n' := hlast
        exact hc (Option.some.inj this)
      | cons d ds =>
        have hend : (d :: ds).getLast? = some '\n' := by
          rw [List.getLast?_cons_cons] at hlast
          exact hlast
        have hne : splitLines (d :: ds) ≠ [] := splitLines_ne_nil (List.cons_ne_nil _ _)
        rw [splitLines_cons, if_neg hc]
        cases hsl : splitLines (d :: ds) with
        | nil => exact absurd hsl hne
        | cons a as =>
          have hih := ih (Or.inr hend)
          rw [hsl] at hih
          simp only [List.map_cons, List.flatten_cons, List.append_assoc,
            List.cons_append, List.nil_append] at hih ⊢
          rw [hih]

theorem encodeRecords_nil : encodeRecords [] = [] := rfl

theorem encodeRecords_cons (r : Str × Str) (rs : List (Str × Str)) :
    encodeRecords (r :: rs) = lineOf r ++ encodeRecords rs := by
  simp [encodeRecords]

theorem encodeRecords_append (xs ys : List (Str × Str)) :
    encodeRecords (xs ++ ys) = encodeRecords xs ++ encodeRecords ys := by
  simp [encodeRecords]

theorem rawLine_no_nl {r : Str × Str} (h : CleanRec r) : '\n' ∉ rawLine r := by
  obtain ⟨h1, h2, h3⟩ := h
  intro hm
  rcases List.mem_append.mp hm with hm | hm
  · exact h2 hm
  · rcases List.mem_cons.mp hm with hm | hm
    · exact absurd hm (by decide)
    · exact h3 hm

theorem splitOnce_rawLine {r : Str × Str} (h : CleanRec r) :
    splitOnce (rawLine r) = some (r.1, r.2) :=
  splitOnce_append _ h.1

theorem splitLines_encode (rs : List (Str × Str)) (h : ∀ r ∈ rs, CleanRec r) :
    splitLines (encodeRecords rs) = rs.map rawLine := by
  induction rs with
  | nil => simp [encodeRecords, splitLines]
  | cons r t ih =>
    rw [encodeRecords_cons]
    have hl : lineOf r ++ encodeRecords t = rawLine r ++ '\n' :: encodeRecords t := by
      simp [lineOf]
    rw [hl, splitLines_append_nl _ (rawLine_no_nl (h r (List.mem_cons_self _ _))),
        ih (fun x hx => h x (List.mem_cons_of_mem _ hx)), List.map_cons]

theorem encodeRecords_ne_nil (r : Str × Str) (rs : List (Str × Str)) :
    encodeRecords (r :: rs) ≠ [] := by
  rw [encodeRecords_cons, lineOf]
  simp

theorem encode_ends_nl (rs : List (Str × Str)) :
    encodeRecords rs = [] ∨ (encodeRecords rs).getLast? = some '\n' := by
  induction rs with
  | nil => exact Or.inl rfl
  | cons r t ih =>
    right
    rw [encodeRecords_cons]
    rcases ih with h | h
    · rw [h, List.append_nil, lineOf]
      exact List.getLast?_concat _
    · cases ht : encodeRecords t with
      | nil => exact absurd ht (by rw [ht] at h; cases h)
      | cons d ds =>
        rw [← ht, getLast?_append_right _ (by rw [ht]; exact List.cons_ne_nil _ _)]
        exact h

/-! ## Decimal round-trip lemmas -/

theorem natDigitsGo_succ (f n : Nat) : natDigitsGo (f + 1) n =
    if n < 10 then [Char.ofNat (48 + n)]
    else natDigitsGo f (n / 10) ++ [Char.ofNat (48 + n % 10)] := rfl

theorem natDigitsGo_fuel (n : Nat) : ∀ f g, n < f → n < g →
    natDigitsGo f n = natDigitsGo g n := by
  induction n using Nat.strong_induction_on with
  | _ n ih =>
    intro f g hf hg
    cases f with
    | zero => omega
    | succ f' =>
      cases g with
      | zero => omega
      | succ g' =>
        rw [natDigitsGo_succ, natDigitsGo_succ]
        by_cases h10 : n < 10
        · simp only [if_pos h10]
        · simp only [if_neg h10]
          have hlt : n / 10 < n := Nat.div_lt_self (by omega) (by omega)
          rw [ih (n / 10) hlt f' g' (by omega) (by omega)]

theorem natDigits_eq (n : Nat) : natDigits n =
    if n < 10 then [Char.ofNat (48 + n)]
    else natDigits (n / 10) ++ [Char.ofNat (48 + n % 10)] := by
  show natDigitsGo (n + 1) n = _
  rw [natDigitsGo_succ]
  by_cases h : n < 10
  · simp only [if_pos h]
  · simp only [if_neg h]
    have hlt : n / 10 < n := Nat.div_lt_self (by omega) (by omega)
    rw [natDigitsGo_fuel (n / 10) n (n / 10 + 1) hlt (Nat.lt_succ_self _)]
    rfl

theorem isDigit_digitChar {d : Nat} (h : d < 10) :
    (Char.ofNat (48 + d)).isDigit = true := by
  interval_cases d <;> decide

theorem digitVal_digitChar {d : Nat} (h : d < 10) :
    digitVal (Char.ofNat (48 + d)) = d := by
  interval_cases d <;> decide

theorem natDigits_all_digit (n : Nat) : ∀ c ∈ natDigits n, c.isDigit = true := by
  induction n using Nat.strong_induction_on with
  | _ n ih =>
    rw [natDigits_eq]
    by_cases h : n < 10
    · rw [if_pos h]
      intro c hc
      rcases List.mem_cons.mp hc with h1 | h1
      · exact h1 ▸ isDigit_digitChar h
      · exact absurd h1 (List.not_mem_nil _)
    · rw [if_neg h]
      intro c hc
      rcases List.mem_append.mp hc with h1 | h1
      · exact ih (n / 10) (Nat.div_lt_self (by omega) (by omega)) c h1
      · rcases List.mem_cons.mp h1 with h2 | h2
        · exact h2 ▸ isDigit_digitChar (Nat.mod_lt _ (by omega))
        · exact absurd h2 (List.not_mem_nil _)

theorem natDigits_ne_nil (n : Nat) : natDigits n ≠ [] := by
  rw [natDigits_eq]
  by_cases h : n < 10
  · rw [if_pos h]
    exact List.cons_ne_nil _ _
  · rw [if_neg h]
    intro hx
    exact absurd (List.append_eq_nil.mp hx).2 (List.cons_ne_nil _ _)

theorem parseNatCore_concat (a : Str) (c : Char) :
    parseNatCore (a ++ [c]) = parseNatCore a * 10 + digitVal c := by
  simp [parseNatCore, List.foldl_append]

theorem parseNatCore_natDigits (n : Nat) : parseNatCore (natDigits n) = n := by
  induction n using Nat.strong_induction_on with
  | _ n ih =>
    rw [natDigits_eq]
    by_cases h : n < 10
    · rw [if_pos h]
      simp only [parseNatCore, List.foldl_cons, List.foldl_nil]
      rw [digitVal_digitChar h]
      omega
    · rw [if_neg h, parseNatCore_concat,
          ih (n / 10) (Nat.div_lt_self (by omega) (by omega)),
          digitVal_digitChar (Nat.mod_lt _ (by omega))]
      omega

theorem parseNatCore_replicate_zero_append (z : Nat) (d : Str) :
    parseNatCore (List.replicate z '0' ++ d) = parseNatCore d := by
  induction z with
  | zero => rfl
  | succ z' ih =>
    have h0 : (0 * 10 + digitVal '0') = 0 := by decide
    simp only [List.replicate_succ, List.cons_append, parseNatCore, List.foldl_cons] at ih ⊢
    rw [h0]
    exact ih

theorem pad5_ne_nil (n : Nat) : pad5 n ≠ [] := by
  simp only [pad5]
  intro h
  exact natDigits_ne_nil n (List.append_eq_nil.mp h).2

theorem pad5_all_digit (n : Nat) : ∀ c ∈ pad5 n, c.isDigit = true := by
  intro c hc
  simp only [pad5] at hc
  rcases List.mem_append.mp hc with h1 | h1
  · rw [List.eq_of_mem_replicate h1]
    decide
  · exact natDigits_all_digit n c h1

theorem parseNat?_pad5 (n : Nat) : parseNat? (pad5 n) = some n := by
  have hdig : (pad5 n).all Char.isDigit = true :=
    List.all_eq_true.mpr (fun c hc => pad5_all_digit n c hc)
  unfold parseNat?
  rw [if_pos ⟨pad5_ne_nil n, hdig⟩]
  simp only [pad5]
  rw [parseNatCore_replicate_zero_append, parseNatCore_natDigits]

/-! ## Path lemmas -/

theorem takeWhile_ne_dot {a : Str} (t : Str) (ha : '.' ∉ a) :
    (a ++ '.' :: t).takeWhile (· ≠ '.') = a := by
  induction a with
  | nil =>
    rw [List.nil_append, List.takeWhile_cons]
    simp
  | cons c cs ih =>
    have hc : c ≠ '.' := fun he => ha (he ▸ List.mem_cons_self _ _)
    simp only [List.cons_append, List.takeWhile_cons, decide_eq_true hc, if_true]
    exact congrArg (c :: ·) (ih (fun hm => ha (List.mem_cons_of_mem _ hm)))

theorem lastDotComp_append {d : Str} (x : Str) (hd : '.' ∉ d) :
    lastDotComp (x ++ '.' :: d) = d := by
  unfold lastDotComp
  rw [List.reverse_append, List.reverse_cons, List.append_assoc, List.singleton_append]
  rw [takeWhile_ne_dot x.reverse (fun hm => hd (List.mem_reverse.mp hm))]
  exact List.reverse_reverse d

theorem dot_not_mem_pad5 (n : Nat) : '.' ∉ pad5 n := by
  intro hm
  have := pad5_all_digit n '.' hm
  exact absurd this (by decide)

theorem seqOfPath_mkPath (dp pre : Str) (n : Nat) :
    seqOfPath (mkPath dp pre n) = some n := by
  unfold seqOfPath mkPath joinPath
  have hre : dp ++ (if dp.getLast? = some '/' then [] else ['/']) ++ (pre ++ '.' :: pad5 n)
      = (dp ++ (if dp.getLast? = some '/' then [] else ['/']) ++ pre) ++ '.' :: pad5 n := by
    simp [List.append_assoc]
  rw [hre, lastDotComp_append _ (dot_not_mem_pad5 n), parseNat?_pad5]

theorem seqOfPath_currentPath (dp pre : Str) :
    seqOfPath (currentPath dp pre) = none := by
  unfold seqOfPath currentPath joinPath
  have hre : dp ++ (if dp.getLast? = some '/' then [] else ['/']) ++
        (pre ++ '.' :: ['c', 'u', 'r', 'r', 'e', 'n', 't'])
      = (dp ++ (if dp.getLast? = some '/' then [] else ['/']) ++ pre) ++
        '.' :: ['c', 'u', 'r', 'r', 'e', 'n', 't'] := by
    simp [List.append_assoc]
  rw [hre, lastDotComp_append _ (by decide)]
  decide

theorem mkPath_ne_currentPath (dp pre : Str) (n : Nat) :
    mkPath dp pre n ≠ currentPath dp pre := by
  intro h
  have h1 := seqOfPath_mkPath dp pre n
  rw [h, seqOfPath_currentPath] at h1
  cases h1

theorem ne_mkPath_of_seq {p : Str} {m : Nat} (dp pre : Str) {n : Nat}
    (hp : seqOfPath p = some m) (h : m ≠ n) : p ≠ mkPath dp pre n := by
  intro he
  rw [he, seqOfPath_mkPath] at hp
  exact h (Option.some.inj hp).symm

/-! ## Maximum lemmas -/

theorem le_foldl_max (as : List Nat) (a : Nat) : a ≤ as.foldl Nat.max a := by
  induction as generalizing a with
  | nil => exact le_refl a
  | cons b bs ih => exact le_trans (Nat.le_max_left a b) (ih (Nat.max a b))

theorem mem_le_foldl_max (as : List Nat) (a : Nat) :
    ∀ x ∈ as, x ≤ as.foldl Nat.max a := by
  induction as generalizing a with
  | nil =>
    intro x hx
    cases hx
  | cons b bs ih =>
    intro x hx
    rcases List.mem_cons.mp hx with h1 | h1
    · subst h1
      exact le_trans (Nat.le_max_right a x) (le_foldl_max bs _)
    · exact ih _ x h1

theorem foldl_max_mem (as : List Nat) (a : Nat) :
    as.foldl Nat.max a = a ∨ as.foldl Nat.max a ∈ as := by
  induction as generalizing a with
  | nil => exact Or.inl rfl
  | cons b bs ih =>
    rw [List.foldl_cons]
    rcases ih (Nat.max a b) with h | h
    · rw [h]
      rcases Nat.le_total a b with h1 | h1
      · refine Or.inr ?_
        have h2 : Nat.max a b = b := Nat.max_eq_right h1
        rw [h2]
        exact List.mem_cons_self _ _
      · exact Or.inl (show Nat.max a b = a from Nat.max_eq_left h1)
    · exact Or.inr (List.mem_cons_of_mem _ h)

theorem listMax?_spec {l : List Nat} {m : Nat} (h : listMax? l = some m) :
    m ∈ l ∧ ∀ x ∈ l, x ≤ m := by
  cases l with
  | nil => cases h
  | cons a as =>
    have hm : as.foldl Nat.max a = m := Option.some.inj h
    subst hm
    refine ⟨?_, ?_⟩
    · rcases foldl_max_mem as a with h1 | h1
      · rw [h1]
        exact List.mem_cons_self _ _
      · exact List.mem_cons_of_mem _ h1
    · intro x hx
      rcases List.mem_cons.mp hx with h1 | h1
      · exact h1 ▸ le_foldl_max as a
      · exact mem_le_foldl_max as a x h1

theorem listMax?_isSome {l : List Nat} (h : l ≠ []) : ∃ m, listMax? l = some m := by
  cases l with
  | nil => exact absurd rfl h
  | cons a as => exact ⟨_, rfl⟩

/-! ## Segment-probe characterization

A segment whose index is `build_index` of contents `encodeRecords recs`
answers a probe for `k` according to the last record for `k`: a missing
key is `Ok("")`, a tombstone is `KeyDeleted`, otherwise the value.
-/

theorem segGet_mk (fs : FS) (p : Str) (idx : List (Str × Nat)) (sz : Nat) (k : Str) :
    segGet fs ⟨p, idx, sz⟩ k =
      match fsRead fs p with
      | none => .error .ioErr
      | some c =>
        match aget idx k with
        | none => .ok []
        | some off =>
          match splitOnce (readLineAt c off) with
          | none => .error .corruption
          | some (lk, v0) =>
            if lk = k then
              if strPop v0 = [] then .error .keyDeleted else .ok (strPop v0)
            else .error .indexCorruption := rfl

theorem lastVal_cons (rk rv : Str) (t : List (Str × Str)) (k : Str) :
    lastVal ((rk, rv) :: t) k =
      match lastVal t k with
      | some w => some w
      | none => if rk = k then some rv else none := rfl

theorem recIndexGo_cons (r : Str × Str) (rs : List (Str × Str)) (pos : Nat)
    (m : List (Str × Nat)) :
    recIndexGo (r :: rs) pos m =
      recIndexGo rs (pos + (lineOf r).length) (ainsert m r.1 pos) := rfl

theorem segGet_index_congr (fs : FS) (p : Str) (sz : Nat) (k : Str)
    (m1 m2 : List (Str × Nat)) (h : aget m1 k = aget m2 k) :
    segGet fs ⟨p, m1, sz⟩ k = segGet fs ⟨p, m2, sz⟩ k := by
  cases hf : fsRead fs p with
  | none => simp [segGet_mk, hf]
  | some c =>
    simp only [segGet_mk, hf]
    rw [h]

theorem segGet_at_line (fs : FS) (p : Str) (m : List (Str × Nat)) (sz : Nat)
    (pre rk rv post : Str) (hcl : CleanRec (rk, rv))
    (hfs : fsRead fs p = some (pre ++ lineOf (rk, rv) ++ post)) :
    segGet fs ⟨p, ainsert m rk pre.length, sz⟩ rk = outcomeOf (some rv) := by
  have hline : lineOf (rk, rv) ++ post = rawLine (rk, rv) ++ '\n' :: post := by
    rw [lineOf, List.append_assoc, List.singleton_append]
  have hread : readLineAt (pre ++ lineOf (rk, rv) ++ post) pre.length
      = rawLine (rk, rv) ++ ['\n'] := by
    rw [List.append_assoc]
    unfold readLineAt
    rw [List.drop_left, hline, takeLine_append _ (rawLine_no_nl hcl)]
  have hsp : splitOnce (rawLine (rk, rv) ++ ['\n']) = some (rk, rv ++ ['\n']) := by
    have hr : rawLine (rk, rv) ++ ['\n'] = rk ++ ',' :: (rv ++ ['\n']) := by
      rw [rawLine, List.append_assoc, List.cons_append]
    rw [hr]
    exact splitOnce_append _ hcl.1
  simp only [segGet_mk, hfs, aget_ainsert_self, hread, hsp, if_pos rfl, if_true,
    strPop_concat, outcomeOf]

theorem segGet_recIndex (fs : FS) (p : Str) (sz : Nat) (k : Str) :
    ∀ (recs : List (Str × Str)) (pre : Str) (m : List (Str × Nat)),
    (∀ r ∈ recs, CleanRec r) →
    fsRead fs p = some (pre ++ encodeRecords recs) →
    segGet fs ⟨p, recIndexGo recs pre.length m, sz⟩ k =
      (match lastVal recs k with
       | some v => outcomeOf (some v)
       | none => segGet fs ⟨p, m, sz⟩ k) := by
  intro recs
  induction recs with
  | nil =>
    intro pre m hcl hfs
    simp [recIndexGo, lastVal]
  | cons r rs ih =>
    intro pre m hcl hfs
    obtain ⟨rk, rv⟩ := r
    have hclr : CleanRec (rk, rv) := hcl _ (List.mem_cons_self _ _)
    have hcls : ∀ x ∈ rs, CleanRec x := fun x hx => hcl x (List.mem_cons_of_mem _ hx)
    have hfs' : fsRead fs p = some ((pre ++ lineOf (rk, rv)) ++ encodeRecords rs) := by
      rw [hfs, encodeRecords_cons, List.append_assoc]
    have hlen : (pre ++ lineOf (rk, rv)).length = pre.length + (lineOf (rk, rv)).length :=
      List.length_append _ _
    have hih := ih (pre ++ lineOf (rk, rv)) (ainsert m rk pre.length) hcls hfs'
    rw [hlen] at hih
    rw [recIndexGo_cons]
    simp only []
    rw [hih, lastVal_cons]
    cases hlv : lastVal rs k with
    | some w => rfl
    | none =>
      by_cases hk : rk = k
      · subst hk
        rw [if_pos rfl]
        exact segGet_at_line fs p m sz pre rk rv (encodeRecords rs) hclr
          (by rw [hfs, encodeRecords_cons, ← List.append_assoc])
      · rw [if_neg hk]
        exact segGet_index_congr fs p sz k _ m (aget_ainsert_ne m _ hk)

/-! ## `build_index` agrees with the record view -/

theorem buildIndexGo_cons (l : Str) (ls : List Str) (pos : Nat) (m : List (Str × Nat)) :
    buildIndexGo (l :: ls) pos m =
      match splitOnce l with
      | none => .error .corruption
      | some (k, _) => buildIndexGo ls (pos + l.length + 1) (ainsert m k pos) := rfl

theorem lineOf_length (r : Str × Str) : (lineOf r).length = (rawLine r).length + 1 := by
  simp [lineOf]

theorem buildIndexGo_encode (rs : List (Str × Str)) :
    ∀ (pos : Nat) (m : List (Str × Nat)),
    (∀ r ∈ rs, CleanRec r) →
    buildIndexGo (rs.map rawLine) pos m = .ok (recIndexGo rs pos m) := by
  induction rs with
  | nil =>
    intro pos m _
    rfl
  | cons r t ih =>
    intro pos m hcl
    obtain ⟨rk, rv⟩ := r
    have hclr := hcl _ (List.mem_cons_self _ _)
    rw [List.map_cons, buildIndexGo_cons, splitOnce_rawLine hclr]
    simp only []
    rw [recIndexGo_cons]
    have h1 : pos + (rawLine (rk, rv)).length + 1 = pos + (lineOf (rk, rv)).length := by
      rw [lineOf_length, ← Nat.add_assoc]
    rw [h1]
    exact ih _ _ (fun x hx => hcl x (List.mem_cons_of_mem _ hx))

theorem buildIndex_encode (rs : List (Str × Str)) (hcl : ∀ r ∈ rs, CleanRec r) :
    buildIndex (encodeRecords rs) = .ok (recIndexGo rs 0 []) := by
  unfold buildIndex
  rw [splitLines_encode rs hcl]
  exact buildIndexGo_encode rs 0 [] hcl

theorem buildIndexGo_decode : ∀ (ls : List Str) (pos : Nat) (m mf : List (Str × Nat)),
    (∀ l ∈ ls, '\n' ∉ l) →
    buildIndexGo ls pos m = .ok mf →
    ∃ rs : List (Str × Str), ls = rs.map rawLine ∧ (∀ r ∈ rs, CleanRec r) ∧
      mf = recIndexGo rs pos m := by
  intro ls
  induction ls with
  | nil =>
    intro pos m mf _ h
    exact ⟨[], rfl, by simp, (Except.ok.inj h).symm⟩
  | cons l t ih =>
    intro pos m mf hnl h
    rw [buildIndexGo_cons] at h
    cases hsp : splitOnce l with
    | none =>
      rw [hsp] at h
      cases h
    | some pr =>
      obtain ⟨k, v⟩ := pr
      rw [hsp] at h
      obtain ⟨he, hcm⟩ := splitOnce_eq hsp
      have hnll : '\n' ∉ l := hnl l (List.mem_cons_self _ _)
      have hclr : CleanRec (k, v) := by
        refine ⟨hcm, fun hm => hnll ?_, fun hm => hnll ?_⟩
        · rw [he]
          exact List.mem_append_left _ hm
        · rw [he]
          exact List.mem_append_right _ (List.mem_cons_of_mem _ hm)
      obtain ⟨rs, hls, hcls, hmf⟩ := ih (pos + l.length + 1) (ainsert m k pos) mf
        (fun x hx => hnl x (List.mem_cons_of_mem _ hx)) h
      refine ⟨(k, v) :: rs, ?_, ?_, ?_⟩
      · rw [List.map_cons, ← hls]
        exact congrArg (fun z => z :: t) he
      · intro r hr
        rcases List.mem_cons.mp hr with h1 | h1
        · exact h1 ▸ hclr
        · exact hcls r h1
      · rw [hmf, recIndexGo_cons]
        have h1 : (lineOf (k, v)).length = l.length + 1 := by
          rw [lineOf_length]
          exact congrArg (· + 1) (congrArg List.length he).symm
        rw [h1, ← Nat.add_assoc]

theorem segWF_decode {fs : FS} {s : Segment} (h : SegWF fs s) :
    ∃ rs : List (Str × Str),
      fsRead fs s.file_path = some (encodeRecords rs) ∧
      (∀ r ∈ rs, CleanRec r) ∧ s.index = recIndexGo rs 0 [] := by
  obtain ⟨hsome, hnl, hbi⟩ := h
  cases hc : fsRead fs s.file_path with
  | none =>
    rw [hc] at hsome
    cases hsome
  | some c =>
    have hca : contentAt fs s.file_path = c := by
      rw [contentAt, hc]
      rfl
    rw [hca] at hnl hbi
    cases hbx : buildIndex c with
    | error e =>
      rw [hbx] at hbi
      simp only [Except.toOption] at hbi
      cases hbi
    | ok m =>
      rw [hbx] at hbi
      simp only [Except.toOption] at hbi
      have hm : m = s.index := Option.some.inj hbi
      subst hm
      unfold buildIndex at hbx
      obtain ⟨rs, hls, hcls, hmf⟩ := buildIndexGo_decode (splitLines c) 0 [] s.index
        (splitLines_no_nl c) hbx
      refine ⟨rs, ?_, hcls, hmf⟩
      have hj := joinNL_splitLines c hnl
      rw [hls] at hj
      have hcomp : ((rs.map rawLine).map (fun l => l ++ ['\n'])).flatten
          = encodeRecords rs := by
        unfold encodeRecords
        rw [List.map_map]
        rfl
      rw [← hj, hcomp]

/-! ## Store-level probe lemmas -/

theorem probeSealed_nil (fs : FS) (k : Str) : probeSealed fs [] k = .ok [] := rfl

theorem probeSealed_cons (fs : FS) (s : Segment) (ss : List Segment) (k : Str) :
    probeSealed fs (s :: ss) k =
      match segGet fs s k with
      | .ok v => if v = [] then probeSealed fs ss k else .ok v
      | .error er => .error er := rfl

theorem getData_eq (fs : FS) (e : Environment) (k : Str) :
    getData fs e k =
      match segGet fs e.write_segment k with
      | .ok v => if v = [] then probeSealed fs e.segments.reverse k else .ok v
      | .error er => .error er := rfl

theorem probeSealed_append (fs : FS) (xs ys : List Segment) (k : Str) :
    probeSealed fs (xs ++ ys) k =
      match probeSealed fs xs k with
      | .ok v => if v = [] then probeSealed fs ys k else .ok v
      | .error er => .error er := by
  induction xs with
  | nil => simp [probeSealed_nil]
  | cons s ss ih =>
    rw [List.cons_append, probeSealed_cons, probeSealed_cons]
    cases hsg : segGet fs s k with
    | error er => rfl
    | ok v =>
      by_cases hv : v = []
      · simp only [if_pos hv, ih]
      · simp only [if_neg hv]

theorem segGet_of_segRecs (fs : FS) (s : Segment) (k : Str)
    (rs : List (Str × Str)) (h : SegRecs fs s rs) :
    segGet fs s k = outcomeOf (lastVal rs k) := by
  obtain ⟨hfs, hcl, hidx⟩ := h
  obtain ⟨p, idx, sz⟩ := s
  simp only at hidx hfs
  subst hidx
  have hmain := segGet_recIndex fs p sz k rs [] [] hcl
    (by rw [List.nil_append]; exact hfs)
  simp only [List.length_nil] at hmain
  rw [hmain]
  cases hlv : lastVal rs k with
  | some v => rfl
  | none => simp [segGet_mk, hfs, aget, outcomeOf]

theorem lastVal_append (a b : List (Str × Str)) (k : Str) :
    lastVal (a ++ b) k =
      match lastVal b k with
      | some w => some w
      | none => lastVal a k := by
  induction a with
  | nil =>
    cases hlv : lastVal b k <;> simp [lastVal, hlv]
  | cons r t ih =>
    obtain ⟨rk, rv⟩ := r
    rw [List.cons_append, lastVal_cons, ih, lastVal_cons]
    cases lastVal b k <;> cases lastVal t k <;> rfl

theorem probeSealed_reverse_lastVal (fs : FS) (k : Str) :
    ∀ (prs : List (Segment × List (Str × Str))),
    (∀ pr ∈ prs, SegRecs fs pr.1 pr.2) →
    probeSealed fs (prs.map Prod.fst).reverse k =
      outcomeOf (lastVal (prs.map Prod.snd).flatten k) := by
  intro prs
  induction prs with
  | nil =>
    intro _
    simp [probeSealed_nil, lastVal, outcomeOf]
  | cons pr t ih =>
    intro hall
    obtain ⟨s, rs⟩ := pr
    rw [List.map_cons, List.reverse_cons, probeSealed_append,
        ih (fun x hx => hall x (List.mem_cons_of_mem _ hx)),
        List.map_cons, List.flatten_cons, lastVal_append]
    have hsr : SegRecs fs s rs := hall (s, rs) (List.mem_cons_self _ _)
    cases hlv : lastVal ((t.map Prod.snd).flatten) k with
    | some w =>
      by_cases hw : w = []
      · subst hw
        simp [outcomeOf]
      · simp [outcomeOf, hw]
    | none =>
      simp only [outcomeOf, if_true]
      rw [probeSealed_cons, probeSealed_nil, segGet_of_segRecs fs s k rs hsr]
      cases hlv2 : lastVal rs k with
      | none => simp [outcomeOf]
      | some v =>
        by_cases hv : v = []
        · subst hv
          simp [outcomeOf]
        · simp [outcomeOf, hv]

theorem probeSealed_all_miss (fs : FS) (k : Str) :
    ∀ (ss : List Segment), (∀ s ∈ ss, segGet fs s k = .ok []) →
    probeSealed fs ss k = .ok [] := by
  intro ss
  induction ss with
  | nil =>
    intro _
    rfl
  | cons s t ih =>
    intro hall
    rw [probeSealed_cons, hall s (List.mem_cons_self _ _)]
    simp only [if_pos rfl]
    exact ih (fun x hx => hall x (List.mem_cons_of_mem _ hx))

/-! ## Merge-replay lemmas (compaction step 1) -/

theorem replayLines_cons (l : Str) (ls : List Str) (m : List (Str × Str)) :
    replayLines (l :: ls) m =
      match applyLine m l with
      | .error er => .error er
      | .ok m2 => replayLines ls m2 := rfl

theorem applyLine_rawLine (m : List (Str × Str)) {r : Str × Str} (hcl : CleanRec r) :
    applyLine m (rawLine r) = .ok (applyRec m r) := by
  unfold applyLine
  rw [splitOnce_rawLine hcl]
  rfl

theorem replayLines_encode (rs : List (Str × Str)) :
    ∀ m, (∀ r ∈ rs, CleanRec r) →
    replayLines (rs.map rawLine) m = .ok (rs.foldl applyRec m) := by
  induction rs with
  | nil =>
    intro m _
    rfl
  | cons r t ih =>
    intro m hcl
    rw [List.map_cons, replayLines_cons, applyLine_rawLine m (hcl r (List.mem_cons_self _ _))]
    simp only []
    rw [List.foldl_cons]
    exact ih _ (fun x hx => hcl x (List.mem_cons_of_mem _ hx))

theorem replaySegs_cons (fs : FS) (s : Segment) (ss : List Segment)
    (m : List (Str × Str)) :
    replaySegs fs (s :: ss) m =
      match fsRead fs s.file_path with
      | none => .error .ioErr
      | some c =>
        match replayLines (splitLines c) m with
        | .error er => .error er
        | .ok m2 => replaySegs fs ss m2 := rfl

theorem replaySegs_encode (fs : FS) :
    ∀ (prs : List (Segment × List (Str × Str))) (m : List (Str × Str)),
    (∀ pr ∈ prs, SegRecs fs pr.1 pr.2) →
    replaySegs fs (prs.map Prod.fst) m =
      .ok (((prs.map Prod.snd).flatten).foldl applyRec m) := by
  intro prs
  induction prs with
  | nil =>
    intro m _
    rfl
  | cons pr t ih =>
    intro m hall
    obtain ⟨s, rs⟩ := pr
    obtain ⟨hfs, hcl, _⟩ := hall (s, rs) (List.mem_cons_self _ _)
    rw [List.map_cons, replaySegs_cons, hfs]
    simp only []
    rw [splitLines_encode rs hcl, replayLines_encode rs m hcl]
    simp only []
    rw [ih _ (fun x hx => hall x (List.mem_cons_of_mem _ hx)),
        List.map_cons, List.flatten_cons, List.foldl_append]

/-! ## Merge-map lemmas -/

theorem aget_foldl_applyRec (rs : List (Str × Str)) :
    ∀ (m : List (Str × Str)) (k : Str), (m.map Prod.fst).Nodup →
    aget (rs.foldl applyRec m) k =
      (match lastVal rs k with
       | some v => if v = [] then none else some v
       | none => aget m k) := by
  induction rs with
  | nil =>
    intro m k _
    simp [lastVal]
  | cons r t ih =>
    intro m k hnd
    obtain ⟨rk, rv⟩ := r
    rw [List.foldl_cons]
    have hnd' : ((applyRec m (rk, rv)).map Prod.fst).Nodup := by
      unfold applyRec
      by_cases hv : rv = []
      · rw [if_pos hv]
        exact nodup_keys_aremove m rk hnd
      · rw [if_neg hv]
        exact nodup_keys_ainsert m rk rv hnd
    rw [ih _ k hnd', lastVal_cons]
    cases hlv : lastVal t k with
    | some w => rfl
    | none =>
      by_cases hk : rk = k
      · subst hk
        rw [if_pos rfl]
        show aget (applyRec m (rk, rv)) rk = if rv = [] then none else some rv
        unfold applyRec
        by_cases hv : rv = []
        · rw [if_pos hv, if_pos hv]
          exact aget_aremove_self m rk hnd
        · rw [if_neg hv, if_neg hv]
          exact aget_ainsert_self m rk rv
      · rw [if_neg hk]
        show aget (applyRec m (rk, rv)) k = aget m k
        unfold applyRec
        by_cases hv : rv = []
        · rw [if_pos hv]
          exact aget_aremove_ne m hk
        · rw [if_neg hv]
          exact aget_ainsert_ne m rv hk

theorem mem_foldl_applyRec (rs : List (Str × Str)) :
    ∀ (m : List (Str × Str)) (x : Str × Str), x ∈ rs.foldl applyRec m →
      x ∈ m ∨ (x ∈ rs ∧ x.2 ≠ []) := by
  induction rs with
  | nil =>
    intro m x hx
    exact Or.inl hx
  | cons r t ih =>
    intro m x hx
    rw [List.foldl_cons] at hx
    rcases ih _ x hx with h | h
    · unfold applyRec at h
      by_cases hv : r.2 = []
      · rw [if_pos hv] at h
        exact Or.inl (mem_aremove h)
      · rw [if_neg hv] at h
        rcases mem_ainsert h with h1 | h1
        · refine Or.inr ⟨?_, ?_⟩
          · rw [h1]
            exact List.mem_cons_self _ _
          · rw [h1]
            exact hv
        · exact Or.inl h1
    · exact Or.inr ⟨List.mem_cons_of_mem _ h.1, h.2⟩

theorem nodup_foldl_applyRec (rs : List (Str × Str)) :
    ∀ m, (m.map Prod.fst).Nodup → ((rs.foldl applyRec m).map Prod.fst).Nodup := by
  induction rs with
  | nil =>
    intro m h
    exact h
  | cons r t ih =>
    intro m h
    rw [List.foldl_cons]
    apply ih
    unfold applyRec
    by_cases hv : r.2 = []
    · rw [if_pos hv]
      exact nodup_keys_aremove m r.1 h
    · rw [if_neg hv]
      exact nodup_keys_ainsert m r.1 r.2 h

/-- How the sealed-probe outcome before compaction lines up with the
merge map `total_data`. -/
theorem compact_merge_rel (fs : FS) (k : Str)
    (prs : List (Segment × List (Str × Str))) (total : List (Str × Str))
    (hall : ∀ pr ∈ prs, SegRecs fs pr.1 pr.2)
    (htot : total = ((prs.map Prod.snd).flatten).foldl applyRec []) :
    (probeSealed fs (prs.map Prod.fst).reverse k = .ok [] ∧ aget total k = none) ∨
    (∃ v, v ≠ [] ∧ probeSealed fs (prs.map Prod.fst).reverse k = .ok v ∧
      aget total k = some v) ∨
    (probeSealed fs (prs.map Prod.fst).reverse k = .error .keyDeleted ∧
      aget total k = none) := by
  subst htot
  have hp := probeSealed_reverse_lastVal fs k prs hall
  have ha := aget_foldl_applyRec ((prs.map Prod.snd).flatten) [] k (by simp)
  cases hlv : lastVal ((prs.map Prod.snd).flatten) k with
  | none =>
    rw [hlv] at hp ha
    left
    exact ⟨hp, by rw [ha]; rfl⟩
  | some v =>
    rw [hlv] at hp ha
    by_cases hv : v = []
    · subst hv
      right
      right
      constructor
      · rw [hp]
        rfl
      · rw [ha]
        simp
    · right
      left
      refine ⟨v, hv, ?_, ?_⟩
      · rw [hp]
        simp [outcomeOf, hv]
      · rw [ha]
        simp [hv]

/-! ## File-system read/write lemmas -/

theorem fsRead_fsWrite_self (fs : FS) (p c : Str) :
    fsRead (fsWrite fs p c) p = some c := aget_ainsert_self fs p c

theorem fsRead_fsWrite_ne (fs : FS) {p q : Str} (c : Str) (h : p ≠ q) :
    fsRead (fsWrite fs p c) q = fsRead fs q := aget_ainsert_ne fs c h

theorem fsRead_fsRemove_ne (fs : FS) {p q : Str} (h : p ≠ q) :
    fsRead (fsRemove fs p) q = fsRead fs q := aget_aremove_ne fs h

theorem fsRead_fsRemove_self (fs : FS) (p : Str) (h : (fs.map Prod.fst).Nodup) :
    fsRead (fsRemove fs p) p = none := aget_aremove_self fs p h

/-! ## Write-path reduction lemmas -/

theorem buildIndex_nil : buildIndex [] = .ok [] := rfl

theorem segmentNew_of_read {fs : FS} {path c : Str} (h : fsRead fs path = some c) :
    segmentNew fs path =
      match buildIndex c with
      | .ok m => .ok (fs, ⟨path, m, c.length⟩)
      | .error er => .error er := by
  unfold segmentNew
  rw [h]

theorem segmentNew_of_missing {fs : FS} {path : Str} (h : fsRead fs path = none) :
    segmentNew fs path = .ok (fsWrite fs path [], ⟨path, [], 0⟩) := by
  unfold segmentNew
  rw [h]
  rfl

theorem segSave_of_read {fs : FS} {s : Segment} {c : Str}
    (h : fsRead fs s.file_path = some c) (k v : Str) :
    segSave fs s k v =
      .ok (fsWrite fs s.file_path (c ++ (k ++ ',' :: v) ++ ['\n']),
        ⟨s.file_path, ainsert s.index k c.length,
         s.size + (k ++ ',' :: v).length + 1⟩) := by
  unfold segSave
  rw [h]

theorem segSave_of_missing {fs : FS} {s : Segment}
    (h : fsRead fs s.file_path = none) (k v : Str) :
    segSave fs s k v = .error .ioErr := by
  unfold segSave
  rw [h]

theorem append_line_encode (W : List (Str × Str)) (k v : Str) :
    encodeRecords W ++ (k ++ ',' :: v) ++ ['\n'] = encodeRecords (W ++ [(k, v)]) := by
  rw [encodeRecords_append, List.append_assoc]
  congr 1
  rw [encodeRecords_cons, encodeRecords_nil, List.append_nil, lineOf, rawLine]

theorem recIndexGo_concat (xs : List (Str × Str)) (r : Str × Str) :
    ∀ (pos : Nat) (m : List (Str × Nat)),
    recIndexGo (xs ++ [r]) pos m =
      ainsert (recIndexGo xs pos m) r.1 (pos + (encodeRecords xs).length) := by
  induction xs with
  | nil =>
    intro pos m
    simp [recIndexGo, encodeRecords]
  | cons x t ih =>
    intro pos m
    rw [List.cons_append, recIndexGo_cons, ih, recIndexGo_cons]
    congr 1
    rw [encodeRecords_cons, List.length_append]
    omega

theorem aget_recIndexGo_isSome (rs : List (Str × Str)) :
    ∀ (pos : Nat) (m : List (Str × Nat)) (q : Str),
    (aget (recIndexGo rs pos m) q).isSome = true →
    q ∈ rs.map Prod.fst ∨ (aget m q).isSome = true := by
  induction rs with
  | nil =>
    intro pos m q h
    exact Or.inr h
  | cons r t ih =>
    intro pos m q h
    rw [recIndexGo_cons] at h
    rcases ih _ _ q h with h1 | h1
    · refine Or.inl ?_
      rw [List.map_cons]
      exact List.mem_cons_of_mem _ h1
    · by_cases hq : r.1 = q
      · refine Or.inl ?_
        rw [List.map_cons, ← hq]
        exact List.mem_cons_self _ _
      · refine Or.inr ?_
        rw [aget_ainsert_ne m _ hq] at h1
        exact h1

theorem compactWrite_nil (fs : FS) (e : Environment) (cur : Segment)
    (acc : List Segment) :
    compactWrite fs e cur acc [] = .ok (fs, acc ++ [cur]) := rfl

theorem compactWrite_cons (fs : FS) (e : Environment) (cur : Segment)
    (acc : List Segment) (k v : Str) (rest : List (Str × Str)) :
    compactWrite fs e cur acc ((k, v) :: rest) =
      if cur.size > SEGMENT_THRESHOLD then
        match nextFileName e with
        | .error er => .error er
        | .ok p =>
          match segmentNew fs p with
          | .error er => .error er
          | .ok (fs1, c2) =>
            match segSave fs1 c2 k v with
            | .error er => .error er
            | .ok (fs2, c3) => compactWrite fs2 e c3 (acc ++ [cur]) rest
      else
        match segSave fs cur k v with
        | .error er => .error er
        | .ok (fs2, c2) => compactWrite fs2 e c2 acc rest := rfl

/-! ## Write-loop characterization (compaction step 2)

The loop writes every merged entry into the file at `next_file_name()`;
that name is recomputed against the unchanged old segment list, so every
"fresh" segment object opens the same file. The final segment object
indexes all written entries; objects pushed at batch boundaries index a
prefix of them.
-/

theorem compactWrite_char (e : Environment) (p : Str) (hnf : nextFileName e = .ok p) :
    ∀ (entries : List (Str × Str)) (fs : FS) (cur : Segment) (acc : List Segment)
      (W : List (Str × Str)),
    (∀ r ∈ W, CleanRec r) →
    (∀ r ∈ entries, CleanRec r) →
    fsRead fs p = some (encodeRecords W) →
    cur.file_path = p →
    cur.index = recIndexGo W 0 [] →
    (∀ s ∈ acc, s.file_path = p ∧
      ∀ q, (aget s.index q).isSome = true → q ∈ W.map Prod.fst) →
    ∃ fsF stale curF,
      compactWrite fs e cur acc entries = .ok (fsF, stale ++ [curF]) ∧
      (∀ s ∈ stale, s.file_path = p ∧
        ∀ q, (aget s.index q).isSome = true → q ∈ (W ++ entries).map Prod.fst) ∧
      curF.file_path = p ∧
      curF.index = recIndexGo (W ++ entries) 0 [] ∧
      fsRead fsF p = some (encodeRecords (W ++ entries)) ∧
      (∀ q, q ≠ p → fsRead fsF q = fsRead fs q) ∧
      ((fs.map Prod.fst).Nodup → (fsF.map Prod.fst).Nodup) := by
  intro entries
  induction entries with
  | nil =>
    intro fs cur acc W hclW _ hfs hpath hidx hacc
    refine ⟨fs, acc, cur, compactWrite_nil fs e cur acc, ?_, hpath, ?_, ?_,
      fun q _ => rfl, fun h => h⟩
    · intro s hs
      rw [List.append_nil]
      exact hacc s hs
    · rw [List.append_nil]
      exact hidx
    · rw [List.append_nil]
      exact hfs
  | cons ent rest ih =>
    intro fs cur acc W hclW hclE hfs hpath hidx hacc
    obtain ⟨k, v⟩ := ent
    have hclkv : CleanRec (k, v) := hclE _ (List.mem_cons_self _ _)
    have hclR : ∀ r ∈ rest, CleanRec r := fun r hr => hclE r (List.mem_cons_of_mem _ hr)
    have hclW' : ∀ r ∈ W ++ [(k, v)], CleanRec r := by
      intro r hr
      rcases List.mem_append.mp hr with h1 | h1
      · exact hclW r h1
      · rcases List.mem_cons.mp h1 with h2 | h2
        · exact h2 ▸ hclkv
        · cases h2
    have happ : W ++ [(k, v)] ++ rest = W ++ (k, v) :: rest := by
      rw [List.append_assoc, List.singleton_append]
    -- the save step performed in both branches, on a segment whose index
    -- is the rebuilt index of the current contents
    have hsave : ∀ (sz : Nat),
        segSave fs ⟨p, recIndexGo W 0 [], sz⟩ k v =
        .ok (fsWrite fs p (encodeRecords (W ++ [(k, v)])),
          ⟨p, recIndexGo (W ++ [(k, v)]) 0 [],
           sz + (k ++ ',' :: v).length + 1⟩) := by
      intro sz
      rw [segSave_of_read hfs k v]
      simp only []
      rw [append_line_encode, recIndexGo_concat]
      simp only [Nat.zero_add]
    have hnext : ∀ (sz : Nat) (acc2 : List Segment),
        (∀ s ∈ acc2, s.file_path = p ∧
          ∀ q, (aget s.index q).isSome = true → q ∈ W.map Prod.fst) →
        ∃ fsF stale curF,
        compactWrite (fsWrite fs p (encodeRecords (W ++ [(k, v)]))) e
          ⟨p, recIndexGo (W ++ [(k, v)]) 0 [], sz⟩ acc2 rest =
          .ok (fsF, stale ++ [curF]) ∧
        (∀ s ∈ stale, s.file_path = p ∧
          ∀ q, (aget s.index q).isSome = true → q ∈ (W ++ (k, v) :: rest).map Prod.fst) ∧
        curF.file_path = p ∧
        curF.index = recIndexGo (W ++ (k, v) :: rest) 0 [] ∧
        fsRead fsF p = some (encodeRecords (W ++ (k, v) :: rest)) ∧
        (∀ q, q ≠ p → fsRead fsF q = fsRead fs q) ∧
        ((fs.map Prod.fst).Nodup → (fsF.map Prod.fst).Nodup) := by
      intro sz acc2 hacc2
      obtain ⟨fsF, stale, curF, h1, h2, h3, h4, h5, h6, h7⟩ :=
        ih (fsWrite fs p (encodeRecords (W ++ [(k, v)])))
          ⟨p, recIndexGo (W ++ [(k, v)]) 0 [], sz⟩ acc2 (W ++ [(k, v)])
          hclW' hclR (fsRead_fsWrite_self fs p _) rfl rfl
          (by
            intro s hs
            refine ⟨(hacc2 s hs).1, fun q hq => ?_⟩
            have := (hacc2 s hs).2 q hq
            rw [List.map_append]
            exact List.mem_append_left _ this)
      refine ⟨fsF, stale, curF, h1, ?_, h3, ?_, ?_, ?_, ?_⟩
      · intro s hs
        refine ⟨(h2 s hs).1, fun q hq => ?_⟩
        have := (h2 s hs).2 q hq
        rw [← happ]
        exact this
      · rw [← happ]
        exact h4
      · rw [← happ]
        exact h5
      · intro q hq
        rw [h6 q hq, fsRead_fsWrite_ne fs _ (fun he => hq he.symm)]
      · intro h
        exact h7 (nodup_keys_ainsert fs p _ h)
    rw [compactWrite_cons]
    by_cases hsz : cur.size > SEGMENT_THRESHOLD
    · rw [if_pos hsz]
      have hsn : segmentNew fs p =
          .ok (fs, ⟨p, recIndexGo W 0 [], (encodeRecords W).length⟩) := by
        rw [segmentNew_of_read hfs, buildIndex_encode W hclW]
      have hacc2 : ∀ s ∈ acc ++ [cur], s.file_path = p ∧
          ∀ q, (aget s.index q).isSome = true → q ∈ W.map Prod.fst := by
        intro s hs
        rcases List.mem_append.mp hs with h8 | h8
        · exact hacc s h8
        · rcases List.mem_cons.mp h8 with h9 | h9
          · subst h9
            refine ⟨hpath, fun q hq => ?_⟩
            rw [hidx] at hq
            rcases aget_recIndexGo_isSome W 0 [] q hq with h10 | h10
            · exact h10
            · simp [aget] at h10
          · cases h9
      obtain ⟨fsF, stale, curF, h1, h2, h3, h4, h5, h6, h7⟩ := hnext
        ((encodeRecords W).length + (k ++ ',' :: v).length + 1) (acc ++ [cur]) hacc2
      refine ⟨fsF, stale, curF, ?_, h2, h3, h4, h5, h6, h7⟩
      simp only [hnf, hsn, hsave ((encodeRecords W).length), h1]
    · rw [if_neg hsz]
      obtain ⟨cp, cidx, csz⟩ := cur
      simp only at hpath hidx hsz
      subst hpath
      subst hidx
      obtain ⟨fsF, stale, curF, h1, h2, h3, h4, h5, h6, h7⟩ := hnext
        (csz + (k ++ ',' :: v).length + 1) acc hacc
      refine ⟨fsF, stale, curF, ?_, h2, h3, h4, h5, h6, h7⟩
      simp only [hsave csz, h1]

/-! ## Old-file removal and next-name characterization -/

theorem removePaths_char : ∀ (ps : List Str) (fs : FS),
    ps.Nodup → (∀ q ∈ ps, (fsRead fs q).isSome = true) →
    (fs.map Prod.fst).Nodup →
    ∃ fsF, removePaths fs ps = .ok fsF ∧
      (∀ q, q ∈ ps → fsRead fsF q = none) ∧
      (∀ q, q ∉ ps → fsRead fsF q = fsRead fs q) ∧
      (fsF.map Prod.fst).Nodup := by
  intro ps
  induction ps with
  | nil =>
    intro fs _ _ hnd
    exact ⟨fs, rfl, by simp, fun q _ => rfl, hnd⟩
  | cons q0 t ih =>
    intro fs hnd hall hfnd
    have hq0 : (fsRead fs q0).isSome = true := hall q0 (List.mem_cons_self _ _)
    cases hr : fsRead fs q0 with
    | none =>
      rw [hr] at hq0
      cases hq0
    | some c =>
      have heq : removePaths fs (q0 :: t) = removePaths (fsRemove fs q0) t := by
        show (match fsRead fs q0 with
              | none => (.error .ioErr : Except KvErr FS)
              | some _ => removePaths (fsRemove fs q0) t) = _
        rw [hr]
      rw [List.nodup_cons] at hnd
      obtain ⟨hq0nt, hndt⟩ := hnd
      have hall' : ∀ q ∈ t, (fsRead (fsRemove fs q0) q).isSome = true := by
        intro q hq
        rw [fsRead_fsRemove_ne fs (fun he : q0 = q => hq0nt (by rw [he]; exact hq))]
        exact hall q (List.mem_cons_of_mem _ hq)
      obtain ⟨fsF, h1, h2, h3, h4⟩ :=
        ih (fsRemove fs q0) hndt hall' (nodup_keys_aremove fs q0 hfnd)
      refine ⟨fsF, by rw [heq]; exact h1, ?_, ?_, h4⟩
      · intro q hq
        rcases List.mem_cons.mp hq with he | he
        · subst he
          rw [h3 q hq0nt]
          exact fsRead_fsRemove_self fs q hfnd
        · exact h2 q he
      · intro q hq
        simp only [List.mem_cons, not_or] at hq
        rw [h3 q hq.2, fsRead_fsRemove_ne fs (fun he => hq.1 he.symm)]

theorem parseSeqs_some : ∀ (ss : List Segment),
    (∀ s ∈ ss, (seqOfPath s.file_path).isSome = true) →
    ∃ ns, parseSeqs ss = .ok ns ∧ ns.length = ss.length ∧
      (∀ n ∈ ns, ∃ s, s ∈ ss ∧ seqOfPath s.file_path = some n) ∧
      (∀ s ∈ ss, ∃ n, n ∈ ns ∧ seqOfPath s.file_path = some n) := by
  intro ss
  induction ss with
  | nil =>
    intro _
    exact ⟨[], rfl, rfl, by simp, by simp⟩
  | cons s t ih =>
    intro hall
    have hs : (seqOfPath s.file_path).isSome = true := hall s (List.mem_cons_self _ _)
    cases hq : seqOfPath s.file_path with
    | none =>
      rw [hq] at hs
      cases hs
    | some n =>
      obtain ⟨ns, h1, h2, h3, h4⟩ := ih (fun x hx => hall x (List.mem_cons_of_mem _ hx))
      refine ⟨n :: ns, ?_, ?_, ?_, ?_⟩
      · show (match seqOfPath s.file_path with
              | none => (.error .abort : Except KvErr (List Nat))
              | some n =>
                match parseSeqs t with
                | .error er => .error er
                | .ok ns => .ok (n :: ns)) = _
        rw [hq, h1]
      · simp [h2]
      · intro x hx
        rcases List.mem_cons.mp hx with he | he
        · exact ⟨s, List.mem_cons_self _ _, he ▸ hq⟩
        · obtain ⟨s2, hs2, hq2⟩ := h3 x he
          exact ⟨s2, List.mem_cons_of_mem _ hs2, hq2⟩
      · intro x hx
        rcases List.mem_cons.mp hx with he | he
        · exact ⟨n, List.mem_cons_self _ _, he ▸ hq⟩
        · obtain ⟨n2, hn2, hq2⟩ := h4 x he
          exact ⟨n2, List.mem_cons_of_mem _ hn2, hq2⟩

theorem nextFileName_char (e : Environment)
    (hparse : ∀ s ∈ e.segments, (seqOfPath s.file_path).isSome = true)
    (hne : e.segments ≠ []) :
    ∃ M, nextFileName e = .ok (mkPath e.data_path e.file_pref (M + 1)) ∧
      (∀ s ∈ e.segments, ∃ n, seqOfPath s.file_path = some n ∧ n ≤ M) ∧
      (∃ s, s ∈ e.segments ∧ seqOfPath s.file_path = some M) := by
  obtain ⟨ns, h1, h2, h3, h4⟩ := parseSeqs_some e.segments hparse
  have hnsne : ns ≠ [] := by
    intro hx
    rw [hx] at h2
    cases hsg : e.segments with
    | nil => exact hne hsg
    | cons a b =>
      rw [hsg] at h2
      simp at h2
  obtain ⟨M, hM⟩ := listMax?_isSome hnsne
  obtain ⟨hMmem, hMub⟩ := listMax?_spec hM
  refine ⟨M, ?_, ?_, ?_⟩
  · unfold nextFileName
    simp only [h1, hM]
  · intro s hs
    obtain ⟨n, hn, hq⟩ := h4 s hs
    exact ⟨n, hq, hMub n hn⟩
  · exact h3 M hMmem

/-! ## Helpers for the master compaction theorem -/

theorem segRecs_list (fs : FS) : ∀ (ss : List Segment),
    (∀ s ∈ ss, SegWF fs s) →
    ∃ prs : List (Segment × List (Str × Str)),
      prs.map Prod.fst = ss ∧ ∀ pr ∈ prs, SegRecs fs pr.1 pr.2 := by
  intro ss
  induction ss with
  | nil =>
    intro _
    exact ⟨[], rfl, by simp⟩
  | cons s t ih =>
    intro hall
    obtain ⟨rs, h1, h2, h3⟩ := segWF_decode (hall s (List.mem_cons_self _ _))
    obtain ⟨prs, hp1, hp2⟩ := ih (fun x hx => hall x (List.mem_cons_of_mem _ hx))
    refine ⟨(s, rs) :: prs, by rw [List.map_cons, hp1], ?_⟩
    intro pr hpr
    rcases List.mem_cons.mp hpr with he | he
    · subst he
      exact ⟨h1, h2, h3⟩
    · exact hp2 pr he

theorem lastVal_eq_aget {rs : List (Str × Str)} (h : (rs.map Prod.fst).Nodup)
    (k : Str) : lastVal rs k = aget rs k := by
  induction rs with
  | nil => rfl
  | cons r t ih =>
    obtain ⟨rk, rv⟩ := r
    rw [List.map_cons, List.nodup_cons] at h
    rw [lastVal_cons, aget_cons, ih h.2]
    by_cases hk : rk = k
    · subst hk
      have hnone : aget t rk = none := (aget_eq_none_iff t rk).mpr h.1
      rw [hnone, if_pos rfl]
    · cases aget t k <;> simp [hk]

theorem segGet_content_congr (fs1 fs2 : FS) (s : Segment) (k : Str)
    (h : fsRead fs1 s.file_path = fsRead fs2 s.file_path) :
    segGet fs1 s k = segGet fs2 s k := by
  obtain ⟨p, idx, sz⟩ := s
  simp only at h
  rw [segGet_mk, segGet_mk, h]

theorem flatten_recs_clean (prs : List (Segment × List (Str × Str))) (fs : FS)
    (hall : ∀ pr ∈ prs, SegRecs fs pr.1 pr.2) :
    ∀ r ∈ (prs.map Prod.snd).flatten, CleanRec r := by
  intro r hr
  rw [List.mem_flatten] at hr
  obtain ⟨l, hl, hrl⟩ := hr
  rw [List.mem_map] at hl
  obtain ⟨pr, hpr, he⟩ := hl
  exact (hall pr hpr).2.1 r (he ▸ hrl)

theorem segGet_miss (fs : FS) (s : Segment) (k : Str) {c : Str}
    (hr : fsRead fs s.file_path = some c) (hi : aget s.index k = none) :
    segGet fs s k = .ok [] := by
  obtain ⟨p, idx, sz⟩ := s
  simp only at hr hi
  simp [segGet_mk, hr, hi]

theorem segWF_content_congr {fs1 fs2 : FS} {s : Segment}
    (h : fsRead fs2 s.file_path = fsRead fs1 s.file_path) (hwf : SegWF fs1 s) :
    SegWF fs2 s := by
  obtain ⟨a, b, c⟩ := hwf
  have hca : contentAt fs2 s.file_path = contentAt fs1 s.file_path := by
    unfold contentAt
    rw [h]
  refine ⟨?_, ?_, ?_⟩
  · rw [h]
    exact a
  · rw [hca]
    exact b
  · rw [hca]
    exact c

/-- Master characterization of `compact_segments` on a well-formed store
with a non-empty sealed list: it succeeds; every new segment object
carries the single path `next_file_name()`; the active file is
untouched; the new sealed probe answers according to the merge map; the
old sealed probe relates to the merge map with tombstones turned into
misses; and when a single segment object was produced the store is
well-formed again. -/
theorem compact_spec (fs : FS) (e : Environment) (hwf : EnvWF fs e)
    (hne : e.segments ≠ []) :
    ∃ p fsF segsNew W,
      nextFileName e = .ok p ∧
      compactSegments fs e = .ok (fsF, { e with segments := segsNew }) ∧
      segsNew ≠ [] ∧
      (∀ s ∈ segsNew, s.file_path = p) ∧
      fsRead fsF (currentPath e.data_path e.file_pref) =
        fsRead fs (currentPath e.data_path e.file_pref) ∧
      (∀ k, probeSealed fsF segsNew.reverse k =
        (match aget W k with
         | some v => .ok v
         | none => .ok [])) ∧
      (∀ k,
        (probeSealed fs e.segments.reverse k = .ok [] ∧ aget W k = none) ∨
        (∃ v, v ≠ [] ∧ probeSealed fs e.segments.reverse k = .ok v ∧
          aget W k = some v) ∨
        (probeSealed fs e.segments.reverse k = .error .keyDeleted ∧
          aget W k = none)) ∧
      (segsNew.length = 1 → EnvWF fsF { e with segments := segsNew }) := by
  obtain ⟨hw1, hw2, hw3, hw4, hw5, hw6, hw7⟩ := hwf
  obtain ⟨prs, hprs1, hprs2⟩ := segRecs_list fs e.segments (fun s hs => (hw3 s hs).1)
  have hreplay : replaySegs fs e.segments [] =
      .ok (((prs.map Prod.snd).flatten).foldl applyRec []) := by
    rw [← hprs1]
    exact replaySegs_encode fs prs [] hprs2
  obtain ⟨M, hnf, hMub, sM, hsM, hsMq⟩ :=
    nextFileName_char e (fun s hs => (hw3 s hs).2) hne
  have hsealed_ne_p : ∀ s ∈ e.segments,
      s.file_path ≠ mkPath e.data_path e.file_pref (M + 1) := by
    intro s hs
    obtain ⟨n, hqn, hnle⟩ := hMub s hs
    exact ne_mkPath_of_seq e.data_path e.file_pref hqn (by omega)
  have hp_ne_cp : mkPath e.data_path e.file_pref (M + 1) ≠
      currentPath e.data_path e.file_pref := mkPath_ne_currentPath _ _ _
  have hpnotold : mkPath e.data_path e.file_pref (M + 1) ∉
      e.segments.map (fun s => s.file_path) := by
    intro hmem
    obtain ⟨s, hsmem, hspath⟩ := List.mem_map.mp hmem
    exact hsealed_ne_p s hsmem hspath
  have hfresh : fsRead fs (mkPath e.data_path e.file_pref (M + 1)) = none := by
    cases hr : fsRead fs (mkPath e.data_path e.file_pref (M + 1)) with
    | none => rfl
    | some c =>
      exfalso
      have hmem : mkPath e.data_path e.file_pref (M + 1) ∈ fs.map Prod.fst := by
        rw [← aget_isSome_iff]
        show (fsRead fs (mkPath e.data_path e.file_pref (M + 1))).isSome = true
        rw [hr]
        rfl
      obtain ⟨pr, hpr, hpe⟩ := List.mem_map.mp hmem
      rcases hw6 pr hpr with he | he
      · exact hp_ne_cp (hpe ▸ he)
      · exact hpnotold (hpe ▸ he)
  have hsn : segmentNew fs (mkPath e.data_path e.file_pref (M + 1)) =
      .ok (fsWrite fs (mkPath e.data_path e.file_pref (M + 1)) [],
        ⟨mkPath e.data_path e.file_pref (M + 1), [], 0⟩) :=
    segmentNew_of_missing hfresh
  have hflat_clean := flatten_recs_clean prs fs hprs2
  have htot_clean : ∀ r ∈ ((prs.map Prod.snd).flatten).foldl applyRec [],
      CleanRec r := by
    intro r hr
    rcases mem_foldl_applyRec _ [] r hr with h | h
    · cases h
    · exact hflat_clean r h.1
  have htot_ne : ∀ r ∈ ((prs.map Prod.snd).flatten).foldl applyRec [],
      r.2 ≠ [] := by
    intro r hr
    rcases mem_foldl_applyRec _ [] r hr with h | h
    · cases h
    · exact h.2
  have htot_nodup : ((((prs.map Prod.snd).flatten).foldl applyRec []).map
      Prod.fst).Nodup := nodup_foldl_applyRec _ [] (by simp)
  obtain ⟨fs2, stale, curF, hcw, hstale, hcfp, hcfi, hcfread, hother, hndkeep⟩ :=
    compactWrite_char e (mkPath e.data_path e.file_pref (M + 1)) hnf
      (((prs.map Prod.snd).flatten).foldl applyRec [])
      (fsWrite fs (mkPath e.data_path e.file_pref (M + 1)) [])
      ⟨mkPath e.data_path e.file_pref (M + 1), [], 0⟩ [] []
      (by simp) htot_clean (fsRead_fsWrite_self fs _ []) rfl rfl (by simp)
  rw [List.nil_append] at hcfi hcfread
  have hstale' : ∀ s ∈ stale, s.file_path = mkPath e.data_path e.file_pref (M + 1) ∧
      ∀ q, (aget s.index q).isSome = true →
        q ∈ (((prs.map Prod.snd).flatten).foldl applyRec []).map Prod.fst := by
    intro s hs
    obtain ⟨ha, hb⟩ := hstale s hs
    refine ⟨ha, fun q hq => ?_⟩
    have := hb q hq
    rwa [List.nil_append] at this
  have hold_present2 : ∀ q ∈ e.segments.map (fun s => s.file_path),
      (fsRead fs2 q).isSome = true := by
    intro q hq
    obtain ⟨s, hsmem, hspath⟩ := List.mem_map.mp hq
    have hqnep : q ≠ mkPath e.data_path e.file_pref (M + 1) :=
      hspath ▸ hsealed_ne_p s hsmem
    rw [hother q hqnep, fsRead_fsWrite_ne fs [] (Ne.symm hqnep)]
    rw [← hspath]
    exact (hw3 s hsmem).1.1
  have hnd2 : (fs2.map Prod.fst).Nodup := hndkeep (nodup_keys_ainsert fs _ [] hw5)
  obtain ⟨fs3, hrem, hremin, hremout, hnd3⟩ :=
    removePaths_char (e.segments.map (fun s => s.file_path)) fs2 hw4
      hold_present2 hnd2
  have hcompact : compactSegments fs e =
      .ok (fs3, { e with segments := stale ++ [curF] }) := by
    unfold compactSegments
    simp only [hreplay, hnf, hsn, hcw, hrem]
  have hfs3p : fsRead fs3 (mkPath e.data_path e.file_pref (M + 1)) =
      some (encodeRecords (((prs.map Prod.snd).flatten).foldl applyRec [])) := by
    rw [hremout _ hpnotold, hcfread]
  have hcure : SegRecs fs3 curF (((prs.map Prod.snd).flatten).foldl applyRec []) := by
    refine ⟨?_, htot_clean, hcfi⟩
    rw [hcfp]
    exact hfs3p
  have hcp3 : fsRead fs3 (currentPath e.data_path e.file_pref) =
      fsRead fs (currentPath e.data_path e.file_pref) := by
    have hcpnotold : currentPath e.data_path e.file_pref ∉
        e.segments.map (fun s => s.file_path) := by
      intro hmem
      obtain ⟨s, hsmem, hspath⟩ := List.mem_map.mp hmem
      have hq := (hw3 s hsmem).2
      rw [hspath, seqOfPath_currentPath] at hq
      cases hq
    rw [hremout _ hcpnotold, hother _ (Ne.symm hp_ne_cp),
        fsRead_fsWrite_ne fs [] hp_ne_cp]
  have hprobe_after : ∀ k, probeSealed fs3 (stale ++ [curF]).reverse k =
      (match aget (((prs.map Prod.snd).flatten).foldl applyRec []) k with
       | some v => Except.ok v
       | none => Except.ok []) := by
    intro k
    rw [List.reverse_append]
    show probeSealed fs3 (curF :: stale.reverse) k = _
    rw [probeSealed_cons, segGet_of_segRecs fs3 curF k _ hcure,
        lastVal_eq_aget htot_nodup]
    cases hag : aget (((prs.map Prod.snd).flatten).foldl applyRec []) k with
    | some v =>
      have hv : v ≠ [] := htot_ne (k, v) (mem_of_aget hag)
      simp [outcomeOf, hv]
    | none =>
      simp only [outcomeOf, if_true]
      apply probeSealed_all_miss
      intro s hs
      have hsmem : s ∈ stale := List.mem_reverse.mp hs
      obtain ⟨hsp, hsub⟩ := hstale' s hsmem
      have hread : fsRead fs3 s.file_path =
          some (encodeRecords (((prs.map Prod.snd).flatten).foldl applyRec [])) := by
        rw [hsp]
        exact hfs3p
      have hagnone : aget s.index k = none := by
        cases hx : aget s.index k with
        | none => rfl
        | some o =>
          exfalso
          have hkin := hsub k (by rw [hx]; rfl)
          rw [← aget_isSome_iff, hag] at hkin
          cases hkin
      exact segGet_miss fs3 s k hread hagnone
  have hbefore : ∀ k,
      (probeSealed fs e.segments.reverse k = .ok [] ∧
        aget (((prs.map Prod.snd).flatten).foldl applyRec []) k = none) ∨
      (∃ v, v ≠ [] ∧ probeSealed fs e.segments.reverse k = .ok v ∧
        aget (((prs.map Prod.snd).flatten).foldl applyRec []) k = some v) ∨
      (probeSealed fs e.segments.reverse k = .error .keyDeleted ∧
        aget (((prs.map Prod.snd).flatten).foldl applyRec []) k = none) := by
    intro k
    have h := compact_merge_rel fs k prs _ hprs2 rfl
    rwa [hprs1] at h
  refine ⟨mkPath e.data_path e.file_pref (M + 1), fs3, stale ++ [curF],
    ((prs.map Prod.snd).flatten).foldl applyRec [],
    hnf, hcompact, by simp, ?_, hcp3, hprobe_after, hbefore, ?_⟩
  · intro s hs
    rcases List.mem_append.mp hs with h1 | h1
    · exact (hstale' s h1).1
    · rcases List.mem_cons.mp h1 with h2 | h2
      · exact h2 ▸ hcfp
      · cases h2
  · intro hlen
    have hstnil : stale = [] := by
      rcases stale with _ | ⟨a, b⟩
      · rfl
      · exfalso
        rw [List.length_append, List.length_cons] at hlen
        simp at hlen
    subst hstnil
    rw [List.nil_append]
    refine ⟨hw1, ?_, ?_, ?_, hnd3, ?_, ?_⟩
    · show SegWF fs3 e.write_segment
      refine segWF_content_congr ?_ hw2
      rw [hw1]
      exact hcp3
    · intro s hs
      rcases List.mem_cons.mp hs with h2 | h2
      · subst h2
        refine ⟨⟨?_, ?_, ?_⟩, ?_⟩
        · rw [hcfp, hfs3p]
          rfl
        · have hca : contentAt fs3 s.file_path =
              encodeRecords (((prs.map Prod.snd).flatten).foldl applyRec []) := by
            unfold contentAt
            rw [hcfp, hfs3p]
            rfl
          rw [hca]
          exact encode_ends_nl _
        · have hca : contentAt fs3 s.file_path =
              encodeRecords (((prs.map Prod.snd).flatten).foldl applyRec []) := by
            unfold contentAt
            rw [hcfp, hfs3p]
            rfl
          rw [hca, buildIndex_encode _ htot_clean, hcfi]
          rfl
        · rw [hcfp, seqOfPath_mkPath]
          rfl
      · cases h2
    · simp
    · intro pr hpr
      have hmem : pr.1 ∈ fs3.map Prod.fst := List.mem_map.mpr ⟨pr, hpr, rfl⟩
      rw [← aget_isSome_iff] at hmem
      have hread3 : (fsRead fs3 pr.1).isSome = true := hmem
      by_cases hq1 : pr.1 ∈ e.segments.map (fun s => s.file_path)
      · exfalso
        rw [hremin pr.1 hq1] at hread3
        cases hread3
      · by_cases hq2 : pr.1 = mkPath e.data_path e.file_pref (M + 1)
        · refine Or.inr ?_
          rw [List.map_cons]
          rw [hq2, ← hcfp]
          exact List.mem_cons_self _ _
        · rw [hremout pr.1 hq1, hother pr.1 hq2,
              fsRead_fsWrite_ne fs [] (fun he => hq2 he.symm)] at hread3
          have hm2 : pr.1 ∈ fs.map Prod.fst := by
            rw [← aget_isSome_iff]
            exact hread3
          obtain ⟨pr2, hpr2, hpe2⟩ := List.mem_map.mp hm2
          rcases hw6 pr2 hpr2 with he | he
          · exact Or.inl (hpe2 ▸ he)
          · exact absurd (hpe2 ▸ he) hq1
    · rw [hcp3]
      exact hw7

theorem getData_mk (fs : FS) (dp pre : Str) (segs : List Segment) (ws : Segment)
    (k : Str) :
    getData fs ⟨dp, pre, segs, ws⟩ k =
      match segGet fs ws k with
      | .ok v => if v = [] then probeSealed fs segs.reverse k else .ok v
      | .error er => .error er := rfl

theorem getData_compare (fs fsF : FS) (e : Environment) (segsNew : List Segment)
    (W : List (Str × Str))
    (hw1 : e.write_segment.file_path = currentPath e.data_path e.file_pref)
    (hcp : fsRead fsF (currentPath e.data_path e.file_pref) =
      fsRead fs (currentPath e.data_path e.file_pref))
    (hafter : ∀ k, probeSealed fsF segsNew.reverse k =
      (match aget W k with
       | some v => Except.ok v
       | none => Except.ok []))
    (hbefore : ∀ k,
      (probeSealed fs e.segments.reverse k = .ok [] ∧ aget W k = none) ∨
      (∃ v, v ≠ [] ∧ probeSealed fs e.segments.reverse k = .ok v ∧
        aget W k = some v) ∨
      (probeSealed fs e.segments.reverse k = .error .keyDeleted ∧
        aget W k = none)) :
    ∀ k, getData fsF { e with segments := segsNew } k = getData fs e k ∨
      (getData fs e k = .error .keyDeleted ∧
        segGet fs e.write_segment k = .ok [] ∧
        getData fsF { e with segments := segsNew } k = .ok []) := by
  intro k
  have hact : segGet fsF e.write_segment k = segGet fs e.write_segment k := by
    apply segGet_content_congr
    rw [hw1]
    exact hcp
  rw [getData_eq fs e k]
  rw [show getData fsF { e with segments := segsNew } k =
      (match segGet fsF e.write_segment k with
       | .ok v => if v = [] then probeSealed fsF segsNew.reverse k else .ok v
       | .error er => .error er) from rfl]
  rw [hact]
  cases hact2 : segGet fs e.write_segment k with
  | error er =>
    left
    rfl
  | ok v =>
    by_cases hv : v = []
    · subst hv
      simp only [if_pos rfl]
      rcases hbefore k with ⟨hb1, hb2⟩ | ⟨w, hw, hb1, hb2⟩ | ⟨hb1, hb2⟩
      · left
        rw [hafter k, hb1, hb2]
      · left
        rw [hafter k, hb1, hb2]
      · right
        refine ⟨?_, trivial, ?_⟩
        · simp only [if_true]
          exact hb1
        · simp only [if_true]
          rw [hafter k, hb2]
    · left
      simp only [if_neg hv]

/-- Claim C1 (amended): on a well-formed store with a non-empty sealed
segment list, `compact()` succeeds, and for every key the result
observable via `get` is identical before and after it, except that a
key whose pre-compaction result was `Deleted` coming from a sealed
tombstone (the active segment reporting not-found) reads as `NotFound`
afterwards; moreover, when the first compaction produced a single
segment object, running `compact()` again with no intervening writes
succeeds and yields the identical observable mapping. -/
theorem compaction_equivalence_amended (fs : FS) (e : Environment)
    (hwf : EnvWF fs e) (hne : e.segments ≠ []) :
    (∃ fsF eF, compactSegments fs e = .ok (fsF, eF)) ∧
    (∀ fsF eF, compactSegments fs e = .ok (fsF, eF) → ∀ k,
      getData fsF eF k = getData fs e k ∨
      (getData fs e k = .error .keyDeleted ∧
        segGet fs e.write_segment k = .ok [] ∧ getData fsF eF k = .ok [])) ∧
    (∀ fsF eF, compactSegments fs e = .ok (fsF, eF) → eF.segments.length = 1 →
      ∃ fs2 e2, compactSegments fsF eF = .ok (fs2, e2) ∧
        ∀ k, getData fs2 e2 k = getData fsF eF k) := by
  obtain ⟨p, fsF0, segsNew, W, hnf, hcomp, hnenew, hpaths, hcp, hafter, hbefore, hwf1⟩ :=
    compact_spec fs e hwf hne
  refine ⟨⟨fsF0, _, hcomp⟩, ?_, ?_⟩
  · intro fsF eF hceq
    rw [hcomp] at hceq
    injection hceq with hpair
    have he1 : fsF0 = fsF := congrArg Prod.fst hpair
    have he2 : ({ e with segments := segsNew } : Environment) = eF :=
      congrArg Prod.snd hpair
    subst he1
    subst he2
    exact getData_compare fs fsF0 e segsNew W hwf.1 hcp hafter hbefore
  · intro fsF eF hceq hlen
    rw [hcomp] at hceq
    injection hceq with hpair
    have he1 : fsF0 = fsF := congrArg Prod.fst hpair
    have he2 : ({ e with segments := segsNew } : Environment) = eF :=
      congrArg Prod.snd hpair
    subst he1
    subst he2
    have hlen' : segsNew.length = 1 := hlen
    have hwf2 := hwf1 hlen'
    have hne2 : ({ e with segments := segsNew } : Environment).segments ≠ [] := hnenew
    obtain ⟨p2, fsF2, segsNew2, W2, hnf2, hcomp2, hnenew2, hpaths2, hcp2,
      hafter2, hbefore2, hwf21⟩ :=
      compact_spec fsF0 { e with segments := segsNew } hwf2 hne2
    refine ⟨fsF2, _, hcomp2, ?_⟩
    intro k
    have hcmp := getData_compare fsF0 fsF2 { e with segments := segsNew } segsNew2 W2
      hwf2.1 hcp2 hafter2 hbefore2 k
    rcases hcmp with h | ⟨hx1, hx2, hx3⟩
    · exact h
    · exfalso
      have hx2' : segGet fsF0 e.write_segment k = .ok [] := hx2
      have hx1' : (match segGet fsF0 e.write_segment k with
          | Except.ok v =>
            if v = [] then probeSealed fsF0 segsNew.reverse k else Except.ok v
          | Except.error er => Except.error er) = Except.error KvErr.keyDeleted := hx1
      rw [hx2'] at hx1'
      simp only [if_true] at hx1'
      rw [hafter k] at hx1'
      cases hg : aget W k with
      | some v =>
        rw [hg] at hx1'
        cases hx1'
      | none =>
        rw [hg] at hx1'
        cases hx1'

/-- Claim C4 (amended): during `compact()` on a well-formed store with a
non-empty sealed list, the merged live entries are written into segment
objects that all carry one and the same numbered file path — the
`next_file_name()` computed against the unchanged old segment list —
so a threshold overflow opens a new object on the same file instead of
a distinct file. -/
theorem compaction_single_file_amended (fs : FS) (e : Environment)
    (hwf : EnvWF fs e) (hne : e.segments ≠ []) :
    ∃ p fsF eF, nextFileName e = .ok p ∧
      compactSegments fs e = .ok (fsF, eF) ∧ eF.segments ≠ [] ∧
      ∀ s ∈ eF.segments, s.file_path = p := by
  obtain ⟨p, fsF0, segsNew, W, hnf, hcomp, hnenew, hpaths, _⟩ :=
    compact_spec fs e hwf hne
  exact ⟨p, fsF0, _, hnf, hcomp, hnenew, hpaths⟩

set_option maxRecDepth 400000 in
/-- Claim C1 counterexample: (a) the store opened on an empty data
directory errors when `compact()` is called, against the claim's "does
not error"; (b) on a well-formed store whose sealed segment holds a
tombstone for key `b`, `compact()` succeeds but `get(b)` changes from
`Deleted` to `NotFound`; (c) on a well-formed store whose merged data
overflows the threshold, the first `compact()` succeeds and a second
`compact()` with no intervening writes fails with an I/O error. -/
theorem compaction_equivalence_cex :
    (environmentNew [] [] dpC preC).toOption = some (fsEmpty, envEmpty) ∧
    errOf (compactSegments fsEmpty envEmpty) = some .abort ∧
    EnvWF fsTomb envTomb ∧
    getData fsTomb envTomb ['b'] = .error .keyDeleted ∧
    ((compactSegments fsTomb envTomb).toOption.map
      (fun pr => (getData pr.1 pr.2 ['b']).toOption)) = some (some []) ∧
    EnvWF fsBig envBig ∧
    ((compactSegments fsBig envBig).toOption.map
      (fun pr => errOf (compactSegments pr.1 pr.2))) = some (some .ioErr) := by
  refine ⟨by decide, by decide, by decide, by decide, by decide, by decide, by decide⟩

/-- Witness for the amended compaction-equivalence claim at a concrete
well-formed store. -/
theorem compaction_equivalence_amended_witness :
    EnvWF fsTomb envTomb ∧ envTomb.segments ≠ [] ∧
    (∃ fsF eF, compactSegments fsTomb envTomb = .ok (fsF, eF)) :=
  ⟨by decide, by decide,
   (compaction_equivalence_amended fsTomb envTomb (by decide) (by decide)).1⟩

set_option maxRecDepth 400000 in
/-- Claim C4 counterexample: compacting `envBig` produces two segment
objects and both carry the same file path (sequence number 2), so the
entries written during one compaction are not distributed over distinct
segment files. -/
theorem compaction_distinct_files_cex :
    EnvWF fsBig envBig ∧
    (compactSegments fsBig envBig).toOption.map
      (fun pr => pr.2.segments.map (fun s => s.file_path)) =
      some [mkPath dpC preC 2, mkPath dpC preC 2] := by
  exact ⟨by decide, by decide⟩

set_option maxRecDepth 400000 in
/-- Witness for the amended single-file compaction claim at a concrete
well-formed store. -/
theorem compaction_single_file_amended_witness :
    EnvWF fsBig envBig ∧
    (∃ p fsF eF, nextFileName envBig = .ok p ∧
      compactSegments fsBig envBig = .ok (fsF, eF) ∧ eF.segments ≠ [] ∧
      ∀ s ∈ eF.segments, s.file_path = p) :=
  ⟨by decide, compaction_single_file_amended fsBig envBig (by decide) (by decide)⟩

theorem probeOutcomes_cons (fs : FS) (k : Str) (s : Segment) (ss : List Segment) :
    probeOutcomes fs k (s :: ss) =
      match specProbeOutcome fs s k, probeOutcomes fs k ss with
      | some r, some rs => some (r :: rs)
      | _, _ => none := rfl

theorem specProbeOutcome_ok {fs : FS} {s : Segment} {k v : Str}
    (hsg : segGet fs s k = .ok v) :
    specProbeOutcome fs s k =
      (if v = [] then some ProbeRes.notFound else some (ProbeRes.value v)) := by
  unfold specProbeOutcome
  rw [hsg]

theorem specProbeOutcome_err {fs : FS} {s : Segment} {k : Str} {er : KvErr}
    (hsg : segGet fs s k = .error er) :
    specProbeOutcome fs s k = errProbe er := by
  unfold specProbeOutcome
  rw [hsg]
  cases er <;> rfl

theorem specProbeOutcome_notFound {fs : FS} {s : Segment} {k : Str}
    (h : specProbeOutcome fs s k = some .notFound) : segGet fs s k = .ok [] := by
  cases hsg : segGet fs s k with
  | ok v =>
    rw [specProbeOutcome_ok hsg] at h
    by_cases hv : v = []
    · rw [hv]
    · rw [if_neg hv] at h
      simp at h
  | error er =>
    rw [specProbeOutcome_err hsg] at h
    cases er <;> simp [errProbe] at h

theorem specProbeOutcome_value {fs : FS} {s : Segment} {k : Str} {v : Str}
    (h : specProbeOutcome fs s k = some (.value v)) :
    segGet fs s k = .ok v ∧ v ≠ [] := by
  cases hsg : segGet fs s k with
  | ok w =>
    rw [specProbeOutcome_ok hsg] at h
    by_cases hw : w = []
    · rw [if_pos hw] at h
      simp at h
    · rw [if_neg hw] at h
      have h2 : ProbeRes.value w = ProbeRes.value v := Option.some.inj h
      injection h2 with hwv
      subst hwv
      exact ⟨rfl, hw⟩
  | error er =>
    rw [specProbeOutcome_err hsg] at h
    cases er <;> simp [errProbe] at h

theorem specProbeOutcome_deleted {fs : FS} {s : Segment} {k : Str}
    (h : specProbeOutcome fs s k = some .deleted) :
    segGet fs s k = .error .keyDeleted := by
  cases hsg : segGet fs s k with
  | ok w =>
    rw [specProbeOutcome_ok hsg] at h
    by_cases hw : w = []
    · rw [if_pos hw] at h
      simp at h
    · rw [if_neg hw] at h
      simp at h
  | error er =>
    rw [specProbeOutcome_err hsg] at h
    cases er <;> first | rfl | simp [errProbe] at h

theorem probeSealed_firstHit (fs : FS) (k : Str) :
    ∀ (ss : List Segment) (rs : List ProbeRes),
    probeOutcomes fs k ss = some rs →
    probeSealed fs ss k = renderProbe (firstNonNotFound rs) := by
  intro ss
  induction ss with
  | nil =>
    intro rs h
    have : ([] : List ProbeRes) = rs := Option.some.inj h
    subst this
    rfl
  | cons s t ih =>
    intro rs h
    rw [probeOutcomes_cons] at h
    cases hpo : specProbeOutcome fs s k with
    | none =>
      rw [hpo] at h
      cases h
    | some r =>
      rw [hpo] at h
      cases hpt : probeOutcomes fs k t with
      | none =>
        rw [hpt] at h
        cases h
      | some rs2 =>
        rw [hpt] at h
        have hrs : r :: rs2 = rs := Option.some.inj h
        subst hrs
        cases r with
        | notFound =>
          rw [probeSealed_cons, specProbeOutcome_notFound hpo]
          simp only [if_true]
          exact ih rs2 hpt
        | deleted =>
          rw [probeSealed_cons, specProbeOutcome_deleted hpo]
          rfl
        | value v =>
          obtain ⟨hsg, hv⟩ := specProbeOutcome_value hpo
          rw [probeSealed_cons, hsg]
          simp only [if_neg hv]
          rfl

/-- Claim C2: `get` probes the active segment first; any non-NotFound
outcome there (a value or Deleted) is the overall result; otherwise the
sealed segments are probed newest-to-oldest and the first non-NotFound
outcome wins; if every segment reports NotFound the result is NotFound
(`Ok("")`). -/
theorem get_probe_order (fs : FS) (e : Environment) (k : Str) (rs : List ProbeRes)
    (h : probeOutcomes fs k (e.write_segment :: e.segments.reverse) = some rs) :
    getData fs e k = renderProbe (firstNonNotFound rs) := by
  rw [probeOutcomes_cons] at h
  cases hpo : specProbeOutcome fs e.write_segment k with
  | none =>
    rw [hpo] at h
    cases h
  | some r =>
    rw [hpo] at h
    cases hpt : probeOutcomes fs k e.segments.reverse with
    | none =>
      rw [hpt] at h
      cases h
    | some rs2 =>
      rw [hpt] at h
      have hrs : r :: rs2 = rs := Option.some.inj h
      subst hrs
      cases r with
      | notFound =>
        rw [getData_eq, specProbeOutcome_notFound hpo]
        simp only [if_true]
        exact probeSealed_firstHit fs k _ rs2 hpt
      | deleted =>
        rw [getData_eq, specProbeOutcome_deleted hpo]
        rfl
      | value v =>
        obtain ⟨hsg, hv⟩ := specProbeOutcome_value hpo
        rw [getData_eq, hsg]
        simp only [if_neg hv]
        rfl

set_option maxRecDepth 40000 in
/-- Witness for the probe-order claim on a concrete store: the active
segment and the newest sealed segment miss, the oldest sealed segment
answers with the value `1`. -/
theorem get_probe_order_witness :
    probeOutcomes fsC2 ['a'] (envC2.write_segment :: envC2.segments.reverse) =
      some [ProbeRes.notFound, ProbeRes.notFound, ProbeRes.value ['1']] ∧
    getData fsC2 envC2 ['a'] =
      renderProbe (firstNonNotFound
        [ProbeRes.notFound, ProbeRes.notFound, ProbeRes.value ['1']]) :=
  ⟨by decide, get_probe_order fsC2 envC2 ['a']
    [ProbeRes.notFound, ProbeRes.notFound, ProbeRes.value ['1']] (by decide)⟩

/-- Claim C3: on a well-formed store with at least one sealed segment,
rotation computes the next sequence number as one greater than the
maximum sequence number among the sealed segments, renames the active
file to `{prefix}.{seq}` (its contents moving with it), appends it as a
sealed segment, opens a fresh empty active segment at the reserved
`current` path, leaves every sealed file untouched and preserves the
concatenation of all stored contents (no record lost or duplicated);
`set` performs this rotation exactly when the active segment's size
exceeds the threshold. -/
theorem rotation_mechanics (fs : FS) (e : Environment)
    (hwf : EnvWF fs e) (hne : e.segments ≠ []) :
    ∃ (M : Nat) (fsR : FS) (eR : Environment),
      (nextFileName e = .ok (mkPath e.data_path e.file_pref (M + 1)) ∧
        (∀ s ∈ e.segments, ∃ n, seqOfPath s.file_path = some n ∧ n ≤ M) ∧
        (∃ s, s ∈ e.segments ∧ seqOfPath s.file_path = some M)) ∧
      retireWriteSegment fs e = .ok (fsR, eR) ∧
      (∃ snew : Segment,
        eR.segments = e.segments ++ [snew] ∧
        snew.file_path = mkPath e.data_path e.file_pref (M + 1) ∧
        contentAt fsR snew.file_path = contentAt fs e.write_segment.file_path ∧
        snew.index = e.write_segment.index) ∧
      (eR.write_segment.file_path = currentPath e.data_path e.file_pref ∧
        contentAt fsR eR.write_segment.file_path = [] ∧
        eR.write_segment.index = [] ∧ eR.write_segment.size = 0) ∧
      (∀ s ∈ e.segments, contentAt fsR s.file_path = contentAt fs s.file_path) ∧
      allContents fsR eR = allContents fs e ∧
      (∀ k v, e.write_segment.size > SEGMENT_THRESHOLD →
        setData fs e k v =
          match segSave fsR eR.write_segment k v with
          | .error er => .error er
          | .ok (fs2, ws) => .ok (fs2, { eR with write_segment := ws })) ∧
      (∀ k v, ¬ e.write_segment.size > SEGMENT_THRESHOLD →
        setData fs e k v =
          match segSave fs e.write_segment k v with
          | .error er => .error er
          | .ok (fs2, ws) => .ok (fs2, { e with write_segment := ws })) := by
  obtain ⟨hcur, hwsWF, hseg, hnd, hfnd, hcov, hcurp⟩ := hwf
  obtain ⟨M, hnf, hub, hexM⟩ := nextFileName_char e (fun s hs => (hseg s hs).2) hne
  obtain ⟨hrd0, hnl0, hbi⟩ := hwsWF
  cases hrd : fsRead fs e.write_segment.file_path with
  | none =>
    rw [hrd] at hrd0
    cases hrd0
  | some c =>
  have hca : contentAt fs e.write_segment.file_path = c := by
    unfold contentAt
    rw [hrd]
    rfl
  rw [hca] at hbi
  have hbidx : buildIndex c = .ok e.write_segment.index := by
    cases hb : buildIndex c with
    | ok m =>
      rw [hb] at hbi
      have h2 : some m = some e.write_segment.index := hbi
      rw [Option.some.inj h2]
    | error er =>
      rw [hb] at hbi
      cases hbi
  set p := mkPath e.data_path e.file_pref (M + 1) with hp
  have hren : fsRename fs e.write_segment.file_path p =
      .ok (fsWrite (fsRemove fs e.write_segment.file_path) p c) := by
    unfold fsRename
    rw [hrd]
  have hfs1p : fsRead (fsWrite (fsRemove fs e.write_segment.file_path) p c) p = some c := by
    show aget (ainsert (aremove fs e.write_segment.file_path) p c) p = some c
    exact aget_ainsert_self _ _ _
  have hsn1 : segmentNew (fsWrite (fsRemove fs e.write_segment.file_path) p c) p =
      .ok (fsWrite (fsRemove fs e.write_segment.file_path) p c,
           ⟨p, e.write_segment.index, c.length⟩) := by
    rw [segmentNew_of_read hfs1p, hbidx]
  have hpne : p ≠ currentPath e.data_path e.file_pref := mkPath_ne_currentPath _ _ _
  have hfs1c : fsRead (fsWrite (fsRemove fs e.write_segment.file_path) p c)
      (currentPath e.data_path e.file_pref) = none := by
    show aget (ainsert (aremove fs e.write_segment.file_path) p c)
      (currentPath e.data_path e.file_pref) = none
    rw [aget_ainsert_ne _ _ hpne, ← hcur]
    exact aget_aremove_self _ _ hfnd
  have hsn2 : segmentNew (fsWrite (fsRemove fs e.write_segment.file_path) p c)
      (currentPath e.data_path e.file_pref) =
      .ok (fsWrite (fsWrite (fsRemove fs e.write_segment.file_path) p c)
             (currentPath e.data_path e.file_pref) [],
           ⟨currentPath e.data_path e.file_pref, [], 0⟩) :=
    segmentNew_of_missing hfs1c
  have hret : retireWriteSegment fs e =
      .ok (fsWrite (fsWrite (fsRemove fs e.write_segment.file_path) p c)
             (currentPath e.data_path e.file_pref) [],
           { e with segments := e.segments ++ [⟨p, e.write_segment.index, c.length⟩],
                    write_segment := ⟨currentPath e.data_path e.file_pref, [], 0⟩ }) := by
    unfold retireWriteSegment
    simp only [hnf, hren, hsn1, hsn2]
  have hfsRp : fsRead (fsWrite (fsWrite (fsRemove fs e.write_segment.file_path) p c)
      (currentPath e.data_path e.file_pref) []) p = some c := by
    show aget (ainsert (ainsert (aremove fs e.write_segment.file_path) p c)
      (currentPath e.data_path e.file_pref) []) p = some c
    rw [aget_ainsert_ne _ _ (Ne.symm hpne)]
    exact aget_ainsert_self _ _ _
  have hcAp : contentAt (fsWrite (fsWrite (fsRemove fs e.write_segment.file_path) p c)
      (currentPath e.data_path e.file_pref) []) p = c := by
    unfold contentAt
    rw [hfsRp]
    rfl
  have hcAc : contentAt (fsWrite (fsWrite (fsRemove fs e.write_segment.file_path) p c)
      (currentPath e.data_path e.file_pref) []) (currentPath e.data_path e.file_pref) = [] := by
    unfold contentAt
    show (aget (ainsert (ainsert (aremove fs e.write_segment.file_path) p c)
      (currentPath e.data_path e.file_pref) []) (currentPath e.data_path e.file_pref)).getD [] = []
    rw [aget_ainsert_self]
    rfl
  have hfsRs : ∀ s ∈ e.segments,
      contentAt (fsWrite (fsWrite (fsRemove fs e.write_segment.file_path) p c)
        (currentPath e.data_path e.file_pref) []) s.file_path = contentAt fs s.file_path := by
    intro s hs
    obtain ⟨n, hqn, hnle⟩ := hub s hs
    have h1 : s.file_path ≠ currentPath e.data_path e.file_pref := by
      intro hx
      rw [hx, seqOfPath_currentPath] at hqn
      cases hqn
    have h2 : s.file_path ≠ p := ne_mkPath_of_seq e.data_path e.file_pref hqn (by omega)
    unfold contentAt
    show (aget (ainsert (ainsert (aremove fs e.write_segment.file_path) p c)
      (currentPath e.data_path e.file_pref) []) s.file_path).getD [] = (aget fs s.file_path).getD []
    rw [aget_ainsert_ne _ _ (Ne.symm h1), aget_ainsert_ne _ _ (Ne.symm h2), hcur,
        aget_aremove_ne _ (Ne.symm h1)]
  refine ⟨M, _, _, ⟨hnf, hub, hexM⟩, hret,
    ⟨⟨p, e.write_segment.index, c.length⟩, rfl, rfl, hcAp.trans hca.symm, rfl⟩,
    ⟨rfl, hcAc, rfl, rfl⟩, hfsRs, ?_, ?_, ?_⟩
  · unfold allContents
    show ((e.segments ++ [(⟨p, e.write_segment.index, c.length⟩ : Segment)]).map
        (fun s => contentAt (fsWrite (fsWrite (fsRemove fs e.write_segment.file_path) p c)
          (currentPath e.data_path e.file_pref) []) s.file_path)).flatten ++
        contentAt (fsWrite (fsWrite (fsRemove fs e.write_segment.file_path) p c)
          (currentPath e.data_path e.file_pref) []) (currentPath e.data_path e.file_pref) = _
    rw [List.map_append, List.flatten_append, hcAc, List.append_nil]
    have hmap : e.segments.map (fun s =>
        contentAt (fsWrite (fsWrite (fsRemove fs e.write_segment.file_path) p c)
          (currentPath e.data_path e.file_pref) []) s.file_path) =
        e.segments.map (fun s => contentAt fs s.file_path) :=
      List.map_congr_left hfsRs
    rw [hmap, hca]
    simp only [List.map_cons, List.map_nil, List.flatten_cons, List.flatten_nil,
      List.append_nil, hcAp, List.append_assoc]
  · intro k v hgt
    unfold setData
    rw [if_pos hgt, hret]
  · intro k v hle
    unfold setData
    rw [if_neg hle]

set_option maxRecDepth 400000 in
/-- Witness for the rotation-mechanics claim at a concrete well-formed
store with one sealed segment holding a single tombstone. -/
theorem rotation_mechanics_witness :
    EnvWF fsTomb envTomb ∧ envTomb.segments ≠ [] ∧
    (∃ (M : Nat) (fsR : FS) (eR : Environment),
      (nextFileName envTomb = .ok (mkPath envTomb.data_path envTomb.file_pref (M + 1)) ∧
        (∀ s ∈ envTomb.segments, ∃ n, seqOfPath s.file_path = some n ∧ n ≤ M) ∧
        (∃ s, s ∈ envTomb.segments ∧ seqOfPath s.file_path = some M)) ∧
      retireWriteSegment fsTomb envTomb = .ok (fsR, eR) ∧
      (∃ snew : Segment,
        eR.segments = envTomb.segments ++ [snew] ∧
        snew.file_path = mkPath envTomb.data_path envTomb.file_pref (M + 1) ∧
        contentAt fsR snew.file_path = contentAt fsTomb envTomb.write_segment.file_path ∧
        snew.index = envTomb.write_segment.index) ∧
      (eR.write_segment.file_path = currentPath envTomb.data_path envTomb.file_pref ∧
        contentAt fsR eR.write_segment.file_path = [] ∧
        eR.write_segment.index = [] ∧ eR.write_segment.size = 0) ∧
      (∀ s ∈ envTomb.segments, contentAt fsR s.file_path = contentAt fsTomb s.file_path) ∧
      allContents fsR eR = allContents fsTomb envTomb ∧
      (∀ k v, envTomb.write_segment.size > SEGMENT_THRESHOLD →
        setData fsTomb envTomb k v =
          match segSave fsR eR.write_segment k v with
          | .error er => .error er
          | .ok (fs2, ws) => .ok (fs2, { eR with write_segment := ws })) ∧
      (∀ k v, ¬ envTomb.write_segment.size > SEGMENT_THRESHOLD →
        setData fsTomb envTomb k v =
          match segSave fsTomb envTomb.write_segment k v with
          | .error er => .error er
          | .ok (fs2, ws) => .ok (fs2, { envTomb with write_segment := ws }))) :=
  ⟨by decide, by decide, rotation_mechanics fsTomb envTomb (by decide) (by decide)⟩

set_option maxRecDepth 400000 in
/-- Claim C5: after `set a 1; set b 2; set a 3; delete b` on a store
opened over an empty data directory, `get a` is `3` and `get b` is
`Deleted`, but `compact()` does not produce the promised sealed segment
set: the sealed list is empty, so `next_file_name` takes `max` of an
empty iterator and `unwrap`s it, and compaction aborts. -/
theorem scenario_compact_aborts :
    c5State.map (fun pr => getData pr.1 pr.2 ['a']) = .ok (.ok ['3']) ∧
    c5State.map (fun pr => getData pr.1 pr.2 ['b']) = .ok (.error .keyDeleted) ∧
    c5State.map (fun pr => pr.2.segments) = .ok [] ∧
    c5State.map (fun pr => compactSegments pr.1 pr.2) = .ok (.error .abort) := by
  decide

theorem buildIndexGo_err : ∀ (ls : List Str) (pos : Nat) (m : List (Str × Nat)),
    (∃ l ∈ ls, splitOnce l = none) → buildIndexGo ls pos m = .error .corruption := by
  intro ls
  induction ls with
  | nil =>
    intro pos m h
    obtain ⟨l, hl, _⟩ := h
    cases hl
  | cons l t ih =>
    intro pos m h
    rw [buildIndexGo_cons]
    cases hs : splitOnce l with
    | none => rfl
    | some pr =>
      obtain ⟨k0, v0⟩ := pr
      obtain ⟨l2, hl2, hn2⟩ := h
      rcases List.mem_cons.mp hl2 with he | he
      · subst he
        rw [hs] at hn2
        cases hn2
      · exact ih _ _ ⟨l2, he, hn2⟩

/-- Claim C6: a segment-file line lacking the separator is fatal, never
silently skipped: building the index over such contents fails with the
corruption error, and `Segment::get_data` on a key whose index offset
points at such a line fails with the corruption error. -/
theorem corruption_detected :
    (∀ (c : Str), (∃ l ∈ splitLines c, splitOnce l = none) →
      buildIndex c = .error .corruption) ∧
    (∀ (fs : FS) (s : Segment) (k : Str) (c : Str) (off : Nat),
      fsRead fs s.file_path = some c →
      aget s.index k = some off →
      splitOnce (readLineAt c off) = none →
      segGet fs s k = .error .corruption) := by
  constructor
  · intro c h
    exact buildIndexGo_err (splitLines c) 0 [] h
  · intro fs s k c off hrd hidx hsp
    unfold segGet
    simp only [hrd, hidx, hsp]

/-- Witness for the corruption claim: the file `ab\n` has a line with no
separator; its index build fails with corruption, and probing a key
whose offset points at that line fails with corruption. -/
theorem corruption_detected_witness :
    ((∃ l ∈ splitLines ['a', 'b', '\n'], splitOnce l = none) ∧
      buildIndex ['a', 'b', '\n'] = .error .corruption) ∧
    (fsRead fsC6 segC6.file_path = some ['a', 'b', '\n'] ∧
      aget segC6.index ['k'] = some 0 ∧
      splitOnce (readLineAt ['a', 'b', '\n'] 0) = none ∧
      segGet fsC6 segC6 ['k'] = .error .corruption) :=
  ⟨⟨by decide, corruption_detected.1 ['a', 'b', '\n'] (by decide)⟩,
   ⟨by decide, by decide, by decide,
    corruption_detected.2 fsC6 segC6 ['k'] ['a', 'b', '\n'] 0 (by decide) (by decide)
      (by decide)⟩⟩

/-- Claim C7 (amended): `save_data` performs no key validation at all.
For every key and value — including keys containing the separator —
`set` on a non-rotating store whose active file exists succeeds and
appends the raw line `key,value\n`; no `InvalidKeyError` (or any other
key-validation error) exists in the code. -/
theorem save_data_no_validation_amended (fs : FS) (e : Environment) (k v : Str)
    (hsz : ¬ e.write_segment.size > SEGMENT_THRESHOLD)
    (c : Str) (hrd : fsRead fs e.write_segment.file_path = some c) :
    setData fs e k v =
      .ok (fsWrite fs e.write_segment.file_path (c ++ (k ++ ',' :: v) ++ ['\n']),
           { e with write_segment :=
              ⟨e.write_segment.file_path, ainsert e.write_segment.index k c.length,
               e.write_segment.size + (k ++ ',' :: v).length + 1⟩ }) := by
  unfold setData
  rw [if_neg hsz]
  unfold segSave
  simp only [hrd]

set_option maxRecDepth 400000 in
/-- Claim C7 counterexample: the key `x,y` contains the separator, yet
`set` succeeds (no error of any kind) and writes the raw line
`x,y,7\n`. -/
theorem save_no_key_validation_cex :
    (',' ∈ ['x', ',', 'y']) ∧
    errOf (setData fsTomb envTomb ['x', ',', 'y'] ['7']) = none ∧
    (setData fsTomb envTomb ['x', ',', 'y'] ['7']).map (fun pr => contentAt pr.1 cpC) =
      .ok (['x', ',', 'y'] ++ ',' :: ['7'] ++ ['\n']) := by
  decide

set_option maxRecDepth 400000 in
/-- Witness for the amended no-validation claim at a concrete store and
a separator-containing key. -/
theorem save_data_no_validation_amended_witness :
    (¬ envTomb.write_segment.size > SEGMENT_THRESHOLD) ∧
    fsRead fsTomb envTomb.write_segment.file_path = some [] ∧
    setData fsTomb envTomb ['x', ',', 'y'] ['7'] =
      .ok (fsWrite fsTomb envTomb.write_segment.file_path
             (([] : Str) ++ (['x', ',', 'y'] ++ ',' :: ['7']) ++ ['\n']),
           { envTomb with write_segment :=
              ⟨envTomb.write_segment.file_path,
               ainsert envTomb.write_segment.index ['x', ',', 'y'] (List.length ([] : Str)),
               envTomb.write_segment.size + (['x', ',', 'y'] ++ ',' :: ['7']).length + 1⟩ }) :=
  ⟨by decide, by decide,
   save_data_no_validation_amended fsTomb envTomb ['x', ',', 'y'] ['7'] (by decide) []
     (by decide)⟩

/-- Claim C8 (amended): for a key free of the separator and of newlines
and a non-empty separator-free value, `set k v; delete k; get k` (on a
non-rotating store whose active file exists) yields `KeyDeleted`, which
is a different result from the `Ok("")` that `get` returns for a key
never set. -/
theorem tombstone_semantics_amended (fs : FS) (e : Environment) (k v c : Str)
    (hk1 : ',' ∉ k) (hk2 : '\n' ∉ k) (hv : v ≠ []) (hvs : ',' ∉ v)
    (hsz1 : ¬ e.write_segment.size > SEGMENT_THRESHOLD)
    (hsz2 : ¬ e.write_segment.size + (k ++ ',' :: v).length + 1 > SEGMENT_THRESHOLD)
    (hrd : fsRead fs e.write_segment.file_path = some c) :
    ∃ (fs2 : FS) (e2 : Environment),
      ((match setData fs e k v with
       | .error er => .error er
       | .ok (fs1, e1) => setData fs1 e1 k [] :
         Except KvErr (FS × Environment))) = .ok (fs2, e2) ∧
      getData fs2 e2 k = .error .keyDeleted ∧
      getData fs2 e2 k ≠ .ok [] := by
  set wp := e.write_segment.file_path with hwp
  set c1 := c ++ (k ++ ',' :: v) ++ ['\n'] with hc1d
  set c2 := c1 ++ (k ++ ',' :: ([] : Str)) ++ ['\n'] with hc2d
  have hset1 : setData fs e k v =
      .ok (fsWrite fs wp c1,
           { e with write_segment :=
              ⟨wp, ainsert e.write_segment.index k c.length,
               e.write_segment.size + (k ++ ',' :: v).length + 1⟩ }) := by
    unfold setData
    rw [if_neg hsz1, segSave_of_read hrd k v]
  have hrd1 : fsRead (fsWrite fs wp c1) wp = some c1 := aget_ainsert_self _ _ _
  have hset2 : setData (fsWrite fs wp c1)
      { e with write_segment :=
         ⟨wp, ainsert e.write_segment.index k c.length,
          e.write_segment.size + (k ++ ',' :: v).length + 1⟩ } k [] =
      .ok (fsWrite (fsWrite fs wp c1) wp c2,
           { e with write_segment :=
              ⟨wp, ainsert (ainsert e.write_segment.index k c.length) k c1.length,
               e.write_segment.size + (k ++ ',' :: v).length + 1 +
                 (k ++ ',' :: ([] : Str)).length + 1⟩ }) := by
    unfold setData
    rw [if_neg hsz2,
        @segSave_of_read (fsWrite fs wp c1)
          ⟨wp, ainsert e.write_segment.index k c.length,
           e.write_segment.size + (k ++ ',' :: v).length + 1⟩ c1 hrd1 k []]
  have hrd2 : fsRead (fsWrite (fsWrite fs wp c1) wp c2) wp = some c2 :=
    aget_ainsert_self _ _ _
  have hshape : c2 = c1 ++ lineOf (k, []) ++ [] := by
    rw [List.append_nil, hc2d, lineOf, rawLine]
    rw [List.append_assoc]
  have hfs : fsRead (fsWrite (fsWrite fs wp c1) wp c2) wp =
      some (c1 ++ lineOf (k, []) ++ []) := by
    rw [hrd2, hshape]
  have hsg := segGet_at_line (fsWrite (fsWrite fs wp c1) wp c2) wp
    (ainsert e.write_segment.index k c.length)
    (e.write_segment.size + (k ++ ',' :: v).length + 1 +
      (k ++ ',' :: ([] : Str)).length + 1)
    c1 k [] [] ⟨hk1, hk2, List.not_mem_nil _⟩ hfs
  have hsg2 : segGet (fsWrite (fsWrite fs wp c1) wp c2)
      (⟨wp, ainsert (ainsert e.write_segment.index k c.length) k c1.length,
        e.write_segment.size + (k ++ ',' :: v).length + 1 +
          (k ++ ',' :: ([] : Str)).length + 1⟩ : Segment) k = .error .keyDeleted := hsg
  have hget : getData (fsWrite (fsWrite fs wp c1) wp c2)
      { e with write_segment :=
         ⟨wp, ainsert (ainsert e.write_segment.index k c.length) k c1.length,
          e.write_segment.size + (k ++ ',' :: v).length + 1 +
            (k ++ ',' :: ([] : Str)).length + 1⟩ } k = .error .keyDeleted := by
    unfold getData
    rw [hsg2]
  refine ⟨_, _, ?_, hget, ?_⟩
  · rw [hset1]
    exact hset2
  · rw [hget]
    intro hx
    cases hx

set_option maxRecDepth 400000 in
/-- Claim C8 counterexample: for a key containing the separator the
sequence `set; delete; get` yields `index corrupted` (a panic), and for
a key containing a newline it yields the corruption error — neither is
the promised `Deleted`. -/
theorem tombstone_comma_key_cex :
    ((match setData fsTomb envTomb ['x', ',', 'y'] ['7'] with
     | .error er => .error er
     | .ok (fs1, e1) =>
       match setData fs1 e1 ['x', ',', 'y'] [] with
       | .error er => .error er
       | .ok (fs2, e2) => .ok (getData fs2 e2 ['x', ',', 'y']) :
       Except KvErr (Except KvErr Str))) =
      .ok (.error .indexCorruption) ∧
    ((match setData fsTomb envTomb ['x', '\n'] ['7'] with
     | .error er => .error er
     | .ok (fs1, e1) =>
       match setData fs1 e1 ['x', '\n'] [] with
       | .error er => .error er
       | .ok (fs2, e2) => .ok (getData fs2 e2 ['x', '\n']) :
       Except KvErr (Except KvErr Str))) =
      .ok (.error .corruption) ∧
    (.error .indexCorruption : Except KvErr Str) ≠ .error .keyDeleted ∧
    (.error .corruption : Except KvErr Str) ≠ .error .keyDeleted := by
  decide

set_option maxRecDepth 400000 in
/-- Witness for the amended tombstone claim at a concrete store and a
clean key. -/
theorem tombstone_semantics_amended_witness :
    (',' ∉ ['a']) ∧ ('\n' ∉ ['a']) ∧ (['1'] : Str) ≠ [] ∧ (',' ∉ ['1']) ∧
    (¬ envTomb.write_segment.size > SEGMENT_THRESHOLD) ∧
    (¬ envTomb.write_segment.size + ((['a'] : Str) ++ ',' :: ['1']).length + 1 >
      SEGMENT_THRESHOLD) ∧
    fsRead fsTomb envTomb.write_segment.file_path = some [] ∧
    (∃ (fs2 : FS) (e2 : Environment),
      ((match setData fsTomb envTomb ['a'] ['1'] with
       | .error er => .error er
       | .ok (fs1, e1) => setData fs1 e1 ['a'] [] :
         Except KvErr (FS × Environment))) = .ok (fs2, e2) ∧
      getData fs2 e2 ['a'] = .error .keyDeleted ∧
      getData fs2 e2 ['a'] ≠ .ok []) :=
  ⟨by decide, by decide, by decide, by decide, by decide, by decide, by decide,
   tombstone_semantics_amended fsTomb envTomb ['a'] ['1'] [] (by decide) (by decide)
     (by decide) (by decide) (by decide) (by decide) (by decide)⟩

set_option maxRecDepth 400000 in
/-- Claim C9 refutation: `Environment::new` keeps `read_dir` discovery
order. Initializing over a directory whose listing enumerates segment 2
before segment 1 produces the sealed list `[2, 1]`, which is not sorted
in ascending sequence order. -/
theorem load_keeps_discovery_order :
    (environmentNew fsTwo listingTwo dpC preC).map
        (fun pr => pr.2.segments.map (fun s => seqOfPath s.file_path)) =
      .ok [some 2, some 1] ∧
    ¬ List.Sorted (· ≤ ·) [2, 1] := by
  constructor
  · decide
  · decide

/-- Claim C10: on a store with no sealed segments, `next_file_name`
takes `max` of an empty iterator and `unwrap`s it, aborting; hence
`set` aborts whenever the active segment's size exceeds the threshold
(the very first rotation), and `compact()` aborts as well. -/
theorem empty_segments_abort (fs : FS) (e : Environment) (h : e.segments = []) :
    nextFileName e = .error .abort ∧
    (e.write_segment.size > SEGMENT_THRESHOLD →
      ∀ k v, setData fs e k v = .error .abort) ∧
    compactSegments fs e = .error .abort := by
  have hnf : nextFileName e = .error .abort := by
    unfold nextFileName
    rw [h]
    rfl
  refine ⟨hnf, ?_, ?_⟩
  · intro hgt k v
    unfold setData
    rw [if_pos hgt]
    unfold retireWriteSegment
    simp only [hnf]
  · unfold compactSegments
    rw [h]
    simp only [replaySegs, hnf]

/-- Witness for the empty-sealed-list abort claim at a concrete store
whose active segment is past the threshold. -/
theorem empty_segments_abort_witness :
    envFull.segments = [] ∧
    (nextFileName envFull = .error .abort ∧
      (envFull.write_segment.size > SEGMENT_THRESHOLD →
        ∀ k v, setData fsEmpty envFull k v = .error .abort) ∧
      compactSegments fsEmpty envFull = .error .abort) :=
  ⟨by decide, empty_segments_abort fsEmpty envFull (by decide)⟩
